import Mathlib

/-!
Verification of the argocd-offline-cli source-handling core.

Go strings are byte sequences; we model them as lists of naturals
(`GoStr`).  All the string operations the code uses
(`strings.HasPrefix`, `strings.TrimPrefix`, `strings.TrimSuffix`,
`strings.Replace` with n = 1, `strings.ToLower`, `strings.TrimSpace`)
are modelled byte-for-byte; `strings.ToLower` is modelled on its ASCII
behaviour (the only inputs the code compares are repository URLs).
-/

/-- A Go string, as its list of bytes. -/
abbrev GoStr := List Nat

/-- Convert a Lean string literal (ASCII) into the byte-list model. -/
def gs (s : String) : GoStr := s.toList.map Char.toNat

/-- ASCII lower-casing of one byte, the byte-level behaviour of
`strings.ToLower` on ASCII input. -/
def lowerByte (b : Nat) : Nat := if 65 ≤ b ∧ b ≤ 90 then b + 32 else b

/-- Model of `strings.ToLower`, restricted to ASCII bytes. -/
def toLowerStr (l : GoStr) : GoStr := l.map lowerByte

/-- Model of `strings.TrimPrefix p l` (arguments flipped): drop `p` from the
front when it is a prefix, otherwise return the string unchanged. -/
def trimPrefixGo (p l : GoStr) : GoStr := if p <+: l then l.drop p.length else l

/-- Model of `strings.TrimSuffix s l` (arguments flipped). -/
def trimSuffixGo (s l : GoStr) : GoStr :=
  if s <:+ l then l.take (l.length - s.length) else l

/-- Model of `strings.Replace(l, a, b, 1)` for one-byte old/new values:
replace the first occurrence of byte `a` by byte `b`. -/
def replaceFirst (l : GoStr) (a b : Nat) : GoStr :=
  match l with
  | [] => []
  | c :: rest => if c = a then b :: rest else c :: replaceFirst rest a b

/-- Bytes treated as white space by `strings.TrimSpace` (ASCII part). -/
def isSpaceByte (b : Nat) : Bool := b = 32 || b = 9 || b = 10 || b = 11 || b = 12 || b = 13

/-- Model of `strings.TrimSpace`: strip leading and trailing white space. -/
def trimSpace (l : GoStr) : GoStr :=
  ((l.dropWhile isSpaceByte).reverse.dropWhile isSpaceByte).reverse

/-- The Origin Normalizer `preview.normalizeGitURL`: rewrite the SSH shorthand
`git@host:owner/repo` to `host/owner/repo` (trim the `git@` prefix and
replace the first `:` by `/`), strip a leading `https://` or
`http://`, strip a trailing `.git`, lower-case.  The four sequential
reassignments of the Go code appear here as nested applications,
innermost first. -/
def normalizeGitURL (url : GoStr) : GoStr :=
  toLowerStr (trimSuffixGo (gs ".git") (trimPrefixGo (gs "http://") (trimPrefixGo (gs "https://")
    (if gs "git@" <+: url then replaceFirst (trimPrefixGo (gs "git@") url) 58 47 else url))))

example : normalizeGitURL (gs "git@github.com:owner/repo.git") = gs "github.com/owner/repo" := by decide
example : normalizeGitURL (gs "https://git.example.com:8443/team/project.git") = gs "git.example.com:8443/team/project" := by decide
example : normalizeGitURL (gs "git@GitHub.com:Owner/Repo.git") = gs "github.com/owner/repo" := by decide
example : normalizeGitURL (gs "") = gs "" := by decide
example : normalizeGitURL (normalizeGitURL (gs "GIT@Host:a/b")) ≠ normalizeGitURL (gs "GIT@Host:a/b") := by decide

/-! ## Basic facts about the string operations -/

theorem length_replaceFirst (l : GoStr) (a b : Nat) :
    (replaceFirst l a b).length = l.length := by
  induction l with
  | nil => rfl
  | cons c rest ih =>
    by_cases h : c = a <;> simp [replaceFirst, h, ih]

theorem trimPrefixGo_of_pos {p l : GoStr} (h : p <+: l) :
    trimPrefixGo p l = l.drop p.length := by
  simp [trimPrefixGo, h]

theorem trimPrefixGo_of_neg {p l : GoStr} (h : ¬ p <+: l) :
    trimPrefixGo p l = l := by
  simp [trimPrefixGo, h]

theorem trimSuffixGo_of_neg {s l : GoStr} (h : ¬ s <:+ l) :
    trimSuffixGo s l = l := by
  simp [trimSuffixGo, h]

theorem length_trimPrefixGo_le (p l : GoStr) :
    (trimPrefixGo p l).length ≤ l.length := by
  by_cases h : p <+: l
  · simp [trimPrefixGo, h]
  · simp [trimPrefixGo, h]

theorem length_trimSuffixGo_le (s l : GoStr) :
    (trimSuffixGo s l).length ≤ l.length := by
  by_cases h : s <:+ l
  · simp [trimSuffixGo, h]
  · simp [trimSuffixGo, h]

theorem length_trimPrefixGo_of_pos {p l : GoStr} (h : p <+: l) :
    (trimPrefixGo p l).length = l.length - p.length := by
  simp [trimPrefixGo, h]

theorem length_trimSuffixGo_of_pos {s l : GoStr} (h : s <:+ l) :
    (trimSuffixGo s l).length = l.length - s.length := by
  have hle : s.length ≤ l.length := h.length_le
  simp [trimSuffixGo, h]

theorem length_toLowerStr (l : GoStr) : (toLowerStr l).length = l.length := by
  simp [toLowerStr]

theorem lowerByte_idem (b : Nat) : lowerByte (lowerByte b) = lowerByte b := by
  unfold lowerByte
  by_cases h : 65 ≤ b ∧ b ≤ 90
  · rw [if_pos h, if_neg (by omega)]
  · rw [if_neg h, if_neg h]

theorem toLowerStr_idem (l : GoStr) : toLowerStr (toLowerStr l) = toLowerStr l := by
  simp only [toLowerStr, List.map_map]
  exact List.map_congr_left fun b _ => lowerByte_idem b

/-- The affixes `normalizeGitURL` recognises and rewrites. -/
def hasMagicAffix (y : GoStr) : Prop :=
  (gs "git@" <+: y) ∨ (gs "https://" <+: y) ∨ (gs "http://" <+: y) ∨ (gs ".git" <:+ y)

instance (y : GoStr) : Decidable (hasMagicAffix y) := by
  unfold hasMagicAffix; infer_instance

theorem length_after_trims_le (z : GoStr) :
    (toLowerStr (trimSuffixGo (gs ".git") (trimPrefixGo (gs "http://")
      (trimPrefixGo (gs "https://") z)))).length ≤ z.length := by
  rw [length_toLowerStr]
  exact le_trans (length_trimSuffixGo_le _ _)
    (le_trans (length_trimPrefixGo_le _ _) (length_trimPrefixGo_le _ _))

theorem length_normalizeGitURL_lt_of_affix {y : GoStr} (h : hasMagicAffix y) :
    (normalizeGitURL y).length < y.length := by
  unfold normalizeGitURL
  by_cases h1 : gs "git@" <+: y
  · have h4 : 4 ≤ y.length := by
      have := h1.length_le; simpa [gs] using this
    have e1 : (if gs "git@" <+: y then replaceFirst (trimPrefixGo (gs "git@") y) 58 47 else y).length
        = y.length - 4 := by
      rw [if_pos h1, length_replaceFirst, length_trimPrefixGo_of_pos h1]
      simp [gs]
    exact lt_of_le_of_lt (le_trans (length_after_trims_le _) (le_of_eq e1)) (by omega)
  · rw [if_neg h1]
    by_cases h2 : gs "https://" <+: y
    · have h8 : 8 ≤ y.length := by
        have := h2.length_le; simpa [gs] using this
      have e2 : (trimPrefixGo (gs "https://") y).length = y.length - 8 := by
        rw [length_trimPrefixGo_of_pos h2]; simp [gs]
      rw [length_toLowerStr]
      exact lt_of_le_of_lt (le_trans (length_trimSuffixGo_le _ _)
        (le_trans (length_trimPrefixGo_le _ _) (le_of_eq e2))) (by omega)
    · rw [trimPrefixGo_of_neg h2]
      by_cases h3 : gs "http://" <+: y
      · have h7 : 7 ≤ y.length := by
          have := h3.length_le; simpa [gs] using this
        have e3 : (trimPrefixGo (gs "http://") y).length = y.length - 7 := by
          rw [length_trimPrefixGo_of_pos h3]; simp [gs]
        rw [length_toLowerStr]
        exact lt_of_le_of_lt (le_trans (length_trimSuffixGo_le _ _) (le_of_eq e3)) (by omega)
      · rw [trimPrefixGo_of_neg h3]
        have h4 : gs ".git" <:+ y := by
          rcases h with h | h | h | h
          · exact absurd h h1
          · exact absurd h h2
          · exact absurd h h3
          · exact h
        have hl : 4 ≤ y.length := by
          have := h4.length_le; simpa [gs] using this
        have e4 : (trimSuffixGo (gs ".git") y).length = y.length - 4 := by
          rw [length_trimSuffixGo_of_pos h4]; simp [gs]
        rw [length_toLowerStr]
        exact lt_of_le_of_lt (le_of_eq e4) (by omega)

theorem normalizeGitURL_ne_of_affix {y : GoStr} (h : hasMagicAffix y) :
    normalizeGitURL y ≠ y := by
  intro he
  have := length_normalizeGitURL_lt_of_affix h
  rw [he] at this
  omega

theorem normalizeGitURL_fixed {y : GoStr} (hlow : toLowerStr y = y)
    (h : ¬ hasMagicAffix y) : normalizeGitURL y = y := by
  unfold hasMagicAffix at h
  push_neg at h
  obtain ⟨h1, h2, h3, h4⟩ := h
  unfold normalizeGitURL
  rw [if_neg h1, trimPrefixGo_of_neg h2, trimPrefixGo_of_neg h3,
    trimSuffixGo_of_neg h4, hlow]

theorem toLowerStr_normalizeGitURL (x : GoStr) :
    toLowerStr (normalizeGitURL x) = normalizeGitURL x := by
  unfold normalizeGitURL
  exact toLowerStr_idem _

/-! ## Claim C3: idempotence of the Origin Normalizer -/

/-- C3 (amended): `normalizeGitURL` is idempotent at `x` exactly when its
output carries none of the recognised affixes (`git@` / `https://` /
`http://` prefix, `.git` suffix).  Inputs whose affix is spelled in
upper or mixed case are lower-cased by the first application into a
recognisable affix, so a second application changes the string. -/
theorem normalizeGitURL_idem_iff (x : GoStr) :
    normalizeGitURL (normalizeGitURL x) = normalizeGitURL x
      ↔ ¬ hasMagicAffix (normalizeGitURL x) := by
  constructor
  · intro he haff
    exact normalizeGitURL_ne_of_affix haff he
  · intro haff
    exact normalizeGitURL_fixed (toLowerStr_normalizeGitURL x) haff

/-- C3 counterexample: an SSH shorthand whose prefix is spelled in upper
case.  The first normalization only lower-cases it; the second then
rewrites the now-recognisable shorthand, so `normalize` is not
idempotent as claimed. -/
theorem normalizeGitURL_not_idempotent_uppercase :
    normalizeGitURL (normalizeGitURL (gs "GIT@Host:owner/repo")) ≠
      normalizeGitURL (gs "GIT@Host:owner/repo") := by decide

theorem normalizeGitURL_idem_iff_witness :
    normalizeGitURL (normalizeGitURL (gs "https://GitHub.com/Owner/Repo.git")) =
      normalizeGitURL (gs "https://GitHub.com/Owner/Repo.git") :=
  (normalizeGitURL_idem_iff (gs "https://GitHub.com/Owner/Repo.git")).mpr (by decide)

/-! ## Data model: content sources (fields used by the core) -/

/-- A content source `argoappv1.ApplicationSource`, restricted to the fields the core
reads or writes: `RepoURL`, `TargetRevision`, `Path`, `Chart`, `Ref`.
A source is a registry (Helm chart) source iff `chart` is non-empty. -/
structure ApplicationSource where
  repoURL : GoStr
  targetRevision : GoStr
  path : GoStr
  chart : GoStr
  ref : GoStr
deriving DecidableEq

/-- The zero value of `ApplicationSource` (Go `make` default). -/
def emptySource : ApplicationSource := ⟨[], [], [], [], []⟩

/-- The two errors `validateGitSourcesConstraint` can build, with the
data each message interpolates (`fmt.Errorf` arguments). -/
inductive ValidationError where
  | emptyRepoURL (index : Nat)
  | differentRepos (index : Nat) (url : GoStr) (firstIndex : Int) (firstUrl : GoStr)
deriving DecidableEq

/-- The loop body of `validateGitSourcesConstraint`: `i` is the index of
the head of `sources` in the original list, `base` is
`baseGitRepoURL` (empty = unset) and `fidx` is `firstGitSourceIndex`
(-1 = unset). -/
def validateLoop : List ApplicationSource → Nat → GoStr → Int → Option ValidationError
  | [], _, _, _ => none
  | s :: rest, i, base, fidx =>
    if s.repoURL = [] then some (ValidationError.emptyRepoURL i)
    else if s.chart ≠ [] then validateLoop rest (i+1) base fidx
    else if base = [] then validateLoop rest (i+1) s.repoURL (i : Int)
    else if s.repoURL ≠ base then some (ValidationError.differentRepos i s.repoURL fidx base)
    else validateLoop rest (i+1) base fidx

/-- The validator `preview.validateGitSourcesConstraint`: every source needs a
non-empty `RepoURL`, and all Git (non-chart) sources must use the same
`RepoURL`, compared as raw strings. -/
def validateGitSourcesConstraint (sources : List ApplicationSource) : Option ValidationError :=
  validateLoop sources 0 [] (-1)

example : validateGitSourcesConstraint
    [⟨gs "https://a/b", gs "main", [], [], []⟩, ⟨gs "https://a/b", gs "main", gs "p", [], []⟩] = none := by decide
example : validateGitSourcesConstraint
    [⟨gs "https://a/b", gs "main", [], [], []⟩, ⟨gs "https://c/d", gs "main", [], [], []⟩] =
    some (ValidationError.differentRepos 1 (gs "https://c/d") 0 (gs "https://a/b")) := by decide
example : validateGitSourcesConstraint
    [⟨gs "https://a/b", gs "main", [], [], []⟩, ⟨[], gs "main", [], [], []⟩] =
    some (ValidationError.emptyRepoURL 1) := by decide
example : validateGitSourcesConstraint
    [⟨gs "https://a/b", gs "1.0", [], gs "c1", []⟩, ⟨gs "https://c/d", gs "2.0", [], gs "c2", []⟩] = none := by decide

theorem validateLoop_none_base {base : GoStr} (hb : base ≠ []) :
    ∀ (sources : List ApplicationSource) (i : Nat) (fidx : Int),
      validateLoop sources i base fidx = none ↔
        (∀ s ∈ sources, s.repoURL ≠ []) ∧ (∀ s ∈ sources, s.chart = [] → s.repoURL = base) := by
  intro sources
  induction sources with
  | nil => intro i fidx; simp [validateLoop]
  | cons s rest ih =>
    intro i fidx
    by_cases h1 : s.repoURL = []
    · simp only [validateLoop, if_pos h1]
      constructor
      · intro h; exact absurd h (by simp)
      · rintro ⟨hne, -⟩; exact absurd h1 (hne s (List.mem_cons_self s rest))
    · by_cases h2 : s.chart = []
      · have h2' : ¬ s.chart ≠ [] := by simpa using h2
        by_cases h3 : s.repoURL = base
        · simp only [validateLoop, if_neg h1, if_neg h2', if_neg hb, if_neg (not_not_intro h3)]
          rw [ih (i+1) fidx]
          constructor
          · rintro ⟨ha, hc⟩
            refine ⟨?_, ?_⟩
            · intro t ht
              rcases List.mem_cons.mp ht with rfl | ht
              · exact h1
              · exact ha t ht
            · intro t ht htc
              rcases List.mem_cons.mp ht with rfl | ht
              · exact h3
              · exact hc t ht htc
          · rintro ⟨ha, hc⟩
            exact ⟨fun t ht => ha t (List.mem_cons_of_mem s ht),
              fun t ht htc => hc t (List.mem_cons_of_mem s ht) htc⟩
        · simp only [validateLoop, if_neg h1, if_neg h2', if_neg hb, if_pos h3]
          constructor
          · intro h; exact absurd h (by simp)
          · rintro ⟨-, hc⟩; exact absurd (hc s (List.mem_cons_self s rest) h2) h3
      · have h2' : s.chart ≠ [] := h2
        simp only [validateLoop, if_neg h1, if_pos h2']
        rw [ih (i+1) fidx]
        constructor
        · rintro ⟨ha, hc⟩
          refine ⟨?_, ?_⟩
          · intro t ht
            rcases List.mem_cons.mp ht with rfl | ht
            · exact h1
            · exact ha t ht
          · intro t ht htc
            rcases List.mem_cons.mp ht with rfl | ht
            · exact absurd htc h2
            · exact hc t ht htc
        · rintro ⟨ha, hc⟩
          exact ⟨fun t ht => ha t (List.mem_cons_of_mem s ht),
            fun t ht htc => hc t (List.mem_cons_of_mem s ht) htc⟩

theorem validateLoop_none_nobase :
    ∀ (sources : List ApplicationSource) (i : Nat) (fidx : Int),
      validateLoop sources i [] fidx = none ↔
        (∀ s ∈ sources, s.repoURL ≠ []) ∧
        (∀ s ∈ sources, ∀ t ∈ sources, s.chart = [] → t.chart = [] → s.repoURL = t.repoURL) := by
  intro sources
  induction sources with
  | nil => intro i fidx; simp [validateLoop]
  | cons s rest ih =>
    intro i fidx
    by_cases h1 : s.repoURL = []
    · simp only [validateLoop, if_pos h1]
      constructor
      · intro h; exact absurd h (by simp)
      · rintro ⟨hne, -⟩; exact absurd h1 (hne s (List.mem_cons_self s rest))
    · by_cases h2 : s.chart = []
      · have h2' : ¬ s.chart ≠ [] := by simpa using h2
        simp only [validateLoop, if_neg h1, if_neg h2', if_pos rfl, if_true]
        rw [validateLoop_none_base h1 rest (i+1) (i : Int)]
        constructor
        · rintro ⟨ha, hc⟩
          refine ⟨?_, ?_⟩
          · intro t ht
            rcases List.mem_cons.mp ht with rfl | ht
            · exact h1
            · exact ha t ht
          · intro u hu v hv huc hvc
            rcases List.mem_cons.mp hu with hus | hu
            · rcases List.mem_cons.mp hv with hvs | hv
              · rw [hus, hvs]
              · rw [hus]; exact (hc v hv hvc).symm
            · rcases List.mem_cons.mp hv with hvs | hv
              · rw [hvs]; exact hc u hu huc
              · exact (hc u hu huc).trans (hc v hv hvc).symm
        · rintro ⟨ha, hc⟩
          refine ⟨fun t ht => ha t (List.mem_cons_of_mem s ht), ?_⟩
          intro t ht htc
          exact (hc s (List.mem_cons_self s rest) t (List.mem_cons_of_mem s ht) h2 htc).symm
      · have h2' : s.chart ≠ [] := h2
        simp only [validateLoop, if_neg h1, if_pos h2']
        rw [ih (i+1) fidx]
        constructor
        · rintro ⟨ha, hc⟩
          refine ⟨?_, ?_⟩
          · intro t ht
            rcases List.mem_cons.mp ht with rfl | ht
            · exact h1
            · exact ha t ht
          · intro u hu v hv huc hvc
            rcases List.mem_cons.mp hu with rfl | hu
            · exact absurd huc h2
            · rcases List.mem_cons.mp hv with rfl | hv
              · exact absurd hvc h2
              · exact hc u hu v hv huc hvc
        · rintro ⟨ha, hc⟩
          exact ⟨fun t ht => ha t (List.mem_cons_of_mem s ht),
            fun u hu v hv huc hvc => hc u (List.mem_cons_of_mem s hu) v (List.mem_cons_of_mem s hv) huc hvc⟩

theorem validateLoop_emptyRepoURL_sound :
    ∀ (sources : List ApplicationSource) (i : Nat) (base : GoStr) (fidx : Int) (k : Nat),
      validateLoop sources i base fidx = some (ValidationError.emptyRepoURL k) →
      ∃ j, ∃ hj : j < sources.length, k = i + j ∧ (sources.get ⟨j, hj⟩).repoURL = [] := by
  intro sources
  induction sources with
  | nil => intro i base fidx k h; exact absurd h (by simp [validateLoop])
  | cons s rest ih =>
    intro i base fidx k h
    simp only [validateLoop] at h
    by_cases h1 : s.repoURL = []
    · rw [if_pos h1] at h
      simp only [Option.some.injEq, ValidationError.emptyRepoURL.injEq] at h
      exact ⟨0, by simp, by omega, by simpa using h1⟩
    · rw [if_neg h1] at h
      by_cases h2 : s.chart = []
      · have h2' : ¬ s.chart ≠ [] := by simpa using h2
        rw [if_neg h2'] at h
        by_cases h3 : base = []
        · rw [if_pos h3] at h
          obtain ⟨j, hj, hk, hr⟩ := ih (i+1) s.repoURL (i : Int) k h
          exact ⟨j+1, by simpa using Nat.succ_lt_succ hj, by omega, by simpa using hr⟩
        · rw [if_neg h3] at h
          by_cases h4 : s.repoURL = base
          · rw [if_neg (not_not_intro h4)] at h
            obtain ⟨j, hj, hk, hr⟩ := ih (i+1) base fidx k h
            exact ⟨j+1, by simpa using Nat.succ_lt_succ hj, by omega, by simpa using hr⟩
          · rw [if_pos h4] at h
            exact absurd h (by simp)
      · have h2' : s.chart ≠ [] := h2
        rw [if_pos h2'] at h
        obtain ⟨j, hj, hk, hr⟩ := ih (i+1) base fidx k h
        exact ⟨j+1, by simpa using Nat.succ_lt_succ hj, by omega, by simpa using hr⟩

theorem validateLoop_differentRepos_sound :
    ∀ (sources : List ApplicationSource) (i : Nat) (base : GoStr) (fidx : Int)
      (k : Nat) (u : GoStr) (f : Int) (fu : GoStr),
      validateLoop sources i base fidx = some (ValidationError.differentRepos k u f fu) →
      (∃ j, ∃ hj : j < sources.length, k = i + j ∧
        (sources.get ⟨j, hj⟩).repoURL = u ∧ (sources.get ⟨j, hj⟩).chart = []) ∧
      u ≠ fu ∧
      ((f = fidx ∧ fu = base ∧ base ≠ []) ∨
       (∃ j, ∃ hj : j < sources.length, f = ((i + j : Nat) : Int) ∧ i + j < k ∧
         (sources.get ⟨j, hj⟩).repoURL = fu ∧ (sources.get ⟨j, hj⟩).chart = [])) := by
  intro sources
  induction sources with
  | nil => intro i base fidx k u f fu h; exact absurd h (by simp [validateLoop])
  | cons s rest ih =>
    intro i base fidx k u f fu h
    simp only [validateLoop] at h
    by_cases h1 : s.repoURL = []
    · rw [if_pos h1] at h
      exact absurd h (by simp)
    · rw [if_neg h1] at h
      by_cases h2 : s.chart = []
      · have h2' : ¬ s.chart ≠ [] := by simpa using h2
        rw [if_neg h2'] at h
        by_cases h3 : base = []
        · rw [if_pos h3] at h
          obtain ⟨⟨j, hj, hk, hu, hc⟩, hne, hdisj⟩ := ih (i+1) s.repoURL (i : Int) k u f fu h
          refine ⟨⟨j+1, by simpa using Nat.succ_lt_succ hj, by omega, by simpa using hu,
            by simpa using hc⟩, hne, ?_⟩
          rcases hdisj with ⟨hf, hfu, -⟩ | ⟨j', hj', hf, hlt, hr, hcc⟩
          · refine Or.inr ⟨0, by simp, ?_, by omega, ?_, ?_⟩
            · simpa using hf
            · simpa using hfu.symm
            · simpa using h2
          · exact Or.inr ⟨j'+1, by simpa using Nat.succ_lt_succ hj',
              by rw [hf]; congr 1; omega, by omega, by simpa using hr, by simpa using hcc⟩
        · rw [if_neg h3] at h
          by_cases h4 : s.repoURL = base
          · rw [if_neg (not_not_intro h4)] at h
            obtain ⟨⟨j, hj, hk, hu, hc⟩, hne, hdisj⟩ := ih (i+1) base fidx k u f fu h
            refine ⟨⟨j+1, by simpa using Nat.succ_lt_succ hj, by omega, by simpa using hu,
              by simpa using hc⟩, hne, ?_⟩
            rcases hdisj with hl | ⟨j', hj', hf, hlt, hr, hcc⟩
            · exact Or.inl hl
            · exact Or.inr ⟨j'+1, by simpa using Nat.succ_lt_succ hj',
                by rw [hf]; congr 1; omega, by omega, by simpa using hr, by simpa using hcc⟩
          · rw [if_pos h4] at h
            simp only [Option.some.injEq, ValidationError.differentRepos.injEq] at h
            obtain ⟨hk, hu, hf, hfu⟩ := h
            refine ⟨⟨0, by simp, by omega, ?_, ?_⟩, ?_, Or.inl ⟨hf.symm, hfu.symm, h3⟩⟩
            · simpa using hu
            · simpa using h2
            · rw [← hu, ← hfu]; exact h4
      · have h2' : s.chart ≠ [] := h2
        rw [if_pos h2'] at h
        obtain ⟨⟨j, hj, hk, hu, hc⟩, hne, hdisj⟩ := ih (i+1) base fidx k u f fu h
        refine ⟨⟨j+1, by simpa using Nat.succ_lt_succ hj, by omega, by simpa using hu,
          by simpa using hc⟩, hne, ?_⟩
        rcases hdisj with hl | ⟨j', hj', hf, hlt, hr, hcc⟩
        · exact Or.inl hl
        · exact Or.inr ⟨j'+1, by simpa using Nat.succ_lt_succ hj',
            by rw [hf]; congr 1; omega, by omega, by simpa using hr, by simpa using hcc⟩

/-! ## Claim C1: the Source Constraint Validator -/

/-- C1 (amended): `validateGitSourcesConstraint` returns an error iff
some source has an empty `originLocation` or two non-registry
(non-chart) sources have `originLocation` values that are unequal as
raw strings — the comparison is literal, byte for byte, not equality
under the Origin Normalizer.  The empty-origin error reports the
zero-based index of an empty-origin source; the same-origin error
reports the offending source's index and literal origin together with
the index and literal origin of an earlier non-registry source (the
first Git source).  A list consisting entirely of registry (chart)
sources with pairwise distinct non-empty origins is accepted. -/
theorem validateGitSourcesConstraint_spec (sources : List ApplicationSource) :
    (validateGitSourcesConstraint sources = none ↔
      (∀ s ∈ sources, s.repoURL ≠ []) ∧
      ∀ i j, ∀ hi : i < sources.length, ∀ hj : j < sources.length,
        (sources.get ⟨i, hi⟩).chart = [] → (sources.get ⟨j, hj⟩).chart = [] →
        (sources.get ⟨i, hi⟩).repoURL = (sources.get ⟨j, hj⟩).repoURL) ∧
    (∀ k, validateGitSourcesConstraint sources = some (ValidationError.emptyRepoURL k) →
      ∃ hk : k < sources.length, (sources.get ⟨k, hk⟩).repoURL = []) ∧
    (∀ k u f fu,
      validateGitSourcesConstraint sources = some (ValidationError.differentRepos k u f fu) →
      u ≠ fu ∧
      (∃ hk : k < sources.length,
        (sources.get ⟨k, hk⟩).repoURL = u ∧ (sources.get ⟨k, hk⟩).chart = []) ∧
      ∃ j, ∃ hj : j < sources.length, f = (j : Int) ∧ j < k ∧
        (sources.get ⟨j, hj⟩).repoURL = fu ∧ (sources.get ⟨j, hj⟩).chart = []) := by
  refine ⟨?_, ?_, ?_⟩
  · rw [validateGitSourcesConstraint, validateLoop_none_nobase sources 0 (-1)]
    constructor
    · rintro ⟨ha, hc⟩
      exact ⟨ha, fun i j hi hj hci hcj =>
        hc _ (List.get_mem sources i hi) _ (List.get_mem sources j hj) hci hcj⟩
    · rintro ⟨ha, hc⟩
      refine ⟨ha, ?_⟩
      intro s hs t ht hsc htc
      obtain ⟨⟨i, hi⟩, rfl⟩ := List.mem_iff_get.mp hs
      obtain ⟨⟨j, hj⟩, rfl⟩ := List.mem_iff_get.mp ht
      exact hc i j hi hj hsc htc
  · intro k h
    obtain ⟨j, hj, hk, hr⟩ := validateLoop_emptyRepoURL_sound sources 0 [] (-1) k h
    obtain rfl : k = j := by omega
    exact ⟨hj, hr⟩
  · intro k u f fu h
    obtain ⟨⟨j, hj, hk, hu, hcj⟩, hne, hdisj⟩ :=
      validateLoop_differentRepos_sound sources 0 [] (-1) k u f fu h
    rcases hdisj with ⟨-, -, hb⟩ | ⟨j', hj', hf, hlt, hr, hcc⟩
    · exact absurd rfl hb
    · obtain rfl : k = j := by omega
      exact ⟨hne, ⟨hj, hu, hcj⟩, j', hj', by simpa using hf, by omega, hr, hcc⟩

/-- C1 counterexample: two non-registry sources naming the same
repository in different spellings (SSH shorthand with `.git` suffix
vs plain HTTPS).  They are equal under the Origin Normalizer, both
have non-empty origins and neither is a registry source, yet the
validator rejects the list: the comparison is literal, not
normalized, so the claimed acceptance fails. -/
theorem validateGitSourcesConstraint_rejects_normalized_equal :
    validateGitSourcesConstraint
      [⟨gs "git@github.com:owner/repo.git", gs "main", [], [], []⟩,
       ⟨gs "https://github.com/owner/repo", gs "main", [], [], []⟩] ≠ none ∧
    normalizeGitURL (gs "git@github.com:owner/repo.git") =
      normalizeGitURL (gs "https://github.com/owner/repo") ∧
    gs "git@github.com:owner/repo.git" ≠ [] ∧
    gs "https://github.com/owner/repo" ≠ [] := by decide

theorem validateGitSourcesConstraint_spec_witness :
    validateGitSourcesConstraint
      [⟨gs "https://a/b", gs "main", [], [], []⟩,
       ⟨gs "https://a/b", gs "main", gs "p2", [], gs "values"⟩] = none :=
  (validateGitSourcesConstraint_spec _).1.mpr
    ⟨by decide, by
      intro i j hi hj hci hcj
      simp only [List.length_cons, List.length_nil] at hi hj
      interval_cases i <;> interval_cases j <;> rfl⟩

/-! ## Result Projector: parsing output into kinds, filtering, grouping -/

/-- Model of `preview.shouldMatch`: true iff the filter value is non-empty. -/
def shouldMatch (v : GoStr) : Bool := decide (0 < v.length)

/-- A rendered document after `json.Unmarshal` into an unstructured
object, restricted to the fields the projector reads (`GetKind`,
`GetName`).  Parsing itself is the external `encoding/json`
collaborator; the projector aborts on a parse failure before any
grouping, so the grouping logic is modelled on parsed documents. -/
structure Resource where
  kind : GoStr
  name : GoStr
deriving DecidableEq

/-- One Go map entry update `resources[kind] = append(resources[kind], r)`
including the make-if-missing step, on an association-list model of
the map keyed in first-insertion order. -/
def mapAppend (m : List (GoStr × List Resource)) (k : GoStr) (r : Resource) :
    List (GoStr × List Resource) :=
  match m with
  | [] => [(k, [r])]
  | (k', rs) :: rest => if k' = k then (k', rs ++ [r]) :: rest else (k', rs) :: mapAppend rest k r

/-- Go map indexing `m[k]` (present/absent). -/
def assocLookup (m : List (GoStr × List Resource)) (k : GoStr) : Option (List Resource) :=
  match m with
  | [] => none
  | (k', v) :: rest => if k' = k then some v else assocLookup rest k

/-- The projector `preview.filterResources`: lower-case each document's kind, skip the
document when a kind filter is set and differs from the lower-cased
kind (the raw filter string is compared against the lower-cased kind),
then append the document to its kind's group. -/
def filterResources (manifests : List Resource) (resKind : GoStr) :
    List (GoStr × List Resource) :=
  manifests.foldl (fun m doc =>
    if shouldMatch resKind ∧ resKind ≠ toLowerStr doc.kind then m
    else mapAppend m (toLowerStr doc.kind) doc) []

/-- Lexicographic byte-order comparison on strings, the order used by
Go's `sort.Strings`. -/
def strLeB : GoStr → GoStr → Bool
  | [], _ => true
  | _ :: _, [] => false
  | a :: as, b :: bs => if a < b then true else if a = b then strLeB as bs else false

def insertStr (x : GoStr) : List GoStr → List GoStr
  | [] => [x]
  | y :: ys => if strLeB x y then x :: y :: ys else y :: insertStr x ys

def sortStrs : List GoStr → List GoStr
  | [] => []
  | x :: xs => insertStr x (sortStrs xs)

/-- The emission order of `preview.printResources`: collect the group map's
keys and sort them with `sort.Strings`; groups are then emitted in
this order.  (The pre-sort collection order of a Go map is
unspecified; since the keys are distinct, the sorted result does not
depend on it, and we feed the keys in first-insertion order.) -/
def printedKinds (m : List (GoStr × List Resource)) : List GoStr :=
  sortStrs (m.map Prod.fst)

/-- The documents of `manifests` that pass the kind filter `resKind`
and whose lower-cased kind is `k`, in input order. -/
def keptWithKind (resKind k : GoStr) (manifests : List Resource) : List Resource :=
  manifests.filter (fun d =>
    decide ((resKind = [] ∨ resKind = toLowerStr d.kind) ∧ toLowerStr d.kind = k))

example : filterResources [⟨gs "Deployment", gs "a"⟩, ⟨gs "Service", gs "b"⟩,
    ⟨gs "deployment", gs "c"⟩] [] =
    [(gs "deployment", [⟨gs "Deployment", gs "a"⟩, ⟨gs "deployment", gs "c"⟩]),
     (gs "service", [⟨gs "Service", gs "b"⟩])] := by decide
example : printedKinds [(gs "service", []), (gs "deployment", []), (gs "configmap", [])] =
    [gs "configmap", gs "deployment", gs "service"] := by decide

theorem assocLookup_mapAppend_self (m : List (GoStr × List Resource)) (k : GoStr) (r : Resource) :
    assocLookup (mapAppend m k r) k = some ((assocLookup m k).getD [] ++ [r]) := by
  induction m with
  | nil => simp [mapAppend, assocLookup]
  | cons p rest ih =>
    obtain ⟨k', rs⟩ := p
    by_cases h : k' = k
    · subst h; simp [mapAppend, assocLookup]
    · simp [mapAppend, assocLookup, h, ih]

theorem assocLookup_mapAppend_ne (m : List (GoStr × List Resource)) (k : GoStr) (r : Resource)
    (kq : GoStr) (h : k ≠ kq) :
    assocLookup (mapAppend m k r) kq = assocLookup m kq := by
  induction m with
  | nil => simp [mapAppend, assocLookup, h]
  | cons p rest ih =>
    obtain ⟨k', rs⟩ := p
    by_cases h' : k' = k
    · subst h'; simp [mapAppend, assocLookup, h]
    · by_cases h'' : k' = kq
      · simp [mapAppend, assocLookup, h', h'', Ne.symm h]
      · simp [mapAppend, assocLookup, h', h'', ih]

theorem assocLookup_eq_none_iff (m : List (GoStr × List Resource)) (k : GoStr) :
    assocLookup m k = none ↔ k ∉ m.map Prod.fst := by
  induction m with
  | nil => simp [assocLookup]
  | cons p rest ih =>
    obtain ⟨k', v⟩ := p
    by_cases h : k' = k
    · subst h; simp [assocLookup]
    · simp [assocLookup, h, ih, Ne.symm h]

theorem filterResources_lookup_general (resKind : GoStr) :
    ∀ (manifests : List Resource) (m : List (GoStr × List Resource)) (k : GoStr),
      assocLookup (manifests.foldl (fun m doc =>
          if shouldMatch resKind ∧ resKind ≠ toLowerStr doc.kind then m
          else mapAppend m (toLowerStr doc.kind) doc) m) k =
        match assocLookup m k with
        | some l => some (l ++ keptWithKind resKind k manifests)
        | none => if keptWithKind resKind k manifests = [] then none
                  else some (keptWithKind resKind k manifests) := by
  intro manifests
  induction manifests with
  | nil =>
    intro m k
    cases h : assocLookup m k <;> simp [keptWithKind, h]
  | cons d ds ih =>
    intro m k
    simp only [List.foldl_cons]
    by_cases hskip : shouldMatch resKind ∧ resKind ≠ toLowerStr d.kind
    · rw [if_pos hskip]
      have hne : resKind ≠ [] := by
        intro hcontra
        have := hskip.1
        rw [hcontra] at this
        simp [shouldMatch] at this
      have hcond : ¬ ((resKind = [] ∨ resKind = toLowerStr d.kind) ∧ toLowerStr d.kind = k) := by
        rintro ⟨h1 | h2, -⟩
        · exact hne h1
        · exact hskip.2 h2
      have hkept : keptWithKind resKind k (d :: ds) = keptWithKind resKind k ds := by
        simp [keptWithKind, List.filter_cons, hcond]
      rw [ih m k, hkept]
    · rw [if_neg hskip]
      by_cases hk : k = toLowerStr d.kind
      · have hcond : (resKind = [] ∨ resKind = toLowerStr d.kind) ∧ toLowerStr d.kind = k := by
          refine ⟨?_, hk.symm⟩
          by_cases hsm : shouldMatch resKind
          · right
            by_contra hne
            exact hskip ⟨hsm, hne⟩
          · left
            simpa [shouldMatch, List.length_eq_zero] using hsm
        have hkept : keptWithKind resKind k (d :: ds) = d :: keptWithKind resKind k ds := by
          have hdec : decide ((resKind = [] ∨ resKind = toLowerStr d.kind) ∧ toLowerStr d.kind = k)
              = true := decide_eq_true hcond
          simp only [keptWithKind, List.filter_cons, hdec, if_true]
        rw [ih (mapAppend m (toLowerStr d.kind) d) k, hkept]
        rw [← hk, assocLookup_mapAppend_self]
        cases h : assocLookup m k with
        | none => simp [h]
        | some l => simp [h, List.append_assoc]
      · have hcond : ¬ ((resKind = [] ∨ resKind = toLowerStr d.kind) ∧ toLowerStr d.kind = k) := by
          rintro ⟨-, h2⟩
          exact hk h2.symm
        have hkept : keptWithKind resKind k (d :: ds) = keptWithKind resKind k ds := by
          simp [keptWithKind, List.filter_cons, hcond]
        rw [ih (mapAppend m (toLowerStr d.kind) d) k, hkept,
          assocLookup_mapAppend_ne m _ d k (fun he => hk he.symm)]

theorem strLeB_total : ∀ a b : GoStr, strLeB a b = false → strLeB b a = true := by
  intro a
  induction a with
  | nil => intro b h; exact absurd h (by simp [strLeB])
  | cons x xs ih =>
    intro b h
    cases b with
    | nil => simp [strLeB]
    | cons y ys =>
      simp only [strLeB] at h ⊢
      by_cases h1 : x < y
      · rw [if_pos h1] at h; exact absurd h (by simp)
      · rw [if_neg h1] at h
        by_cases h2 : x = y
        · rw [if_pos h2] at h
          subst h2
          rw [if_neg h1, if_pos rfl]
          exact ih ys h
        · have h3 : y < x := by omega
          rw [if_pos h3]

theorem mem_insertStr (x : GoStr) : ∀ (l : List GoStr) (y : GoStr),
    y ∈ insertStr x l ↔ y = x ∨ y ∈ l := by
  intro l
  induction l with
  | nil => intro y; simp [insertStr]
  | cons z zs ih =>
    intro y
    simp only [insertStr]
    by_cases h : strLeB x z
    · rw [if_pos h]; simp [List.mem_cons]
    · rw [if_neg h]
      simp only [List.mem_cons, ih]
      tauto

theorem head?_insertStr (x : GoStr) (l : List GoStr) :
    (insertStr x l).head? = some x ∨ (insertStr x l).head? = l.head? := by
  cases l with
  | nil => left; rfl
  | cons z zs =>
    by_cases h : strLeB x z
    · left; simp [insertStr, h]
    · right; simp [insertStr, h]

theorem chain'_insertStr (x : GoStr) : ∀ l : List GoStr,
    List.Chain' (fun a b => strLeB a b = true) l →
    List.Chain' (fun a b => strLeB a b = true) (insertStr x l) := by
  intro l
  induction l with
  | nil => intro _; simp [insertStr]
  | cons z zs ih =>
    intro h
    simp only [insertStr]
    by_cases hle : strLeB x z
    · rw [if_pos hle]
      exact List.Chain'.cons hle h
    · rw [if_neg hle]
      have hzx : strLeB z x = true := strLeB_total x z (by simpa using hle)
      have hch := ih h.tail
      refine List.chain'_cons'.mpr ⟨?_, hch⟩
      intro y hy
      rcases head?_insertStr x zs with he | he
      · rw [he] at hy
        obtain rfl : x = y := by simpa using hy
        exact hzx
      · rw [he] at hy
        exact (List.chain'_cons'.mp h).1 y hy

theorem chain'_sortStrs : ∀ l : List GoStr,
    List.Chain' (fun a b => strLeB a b = true) (sortStrs l) := by
  intro l
  induction l with
  | nil => simp [sortStrs]
  | cons x xs ih => exact chain'_insertStr x (sortStrs xs) ih

theorem mem_sortStrs : ∀ (l : List GoStr) (y : GoStr), y ∈ sortStrs l ↔ y ∈ l := by
  intro l
  induction l with
  | nil => intro y; simp [sortStrs]
  | cons x xs ih =>
    intro y
    simp only [sortStrs, mem_insertStr, ih, List.mem_cons]

/-! ## Claim C2: kind filtering, grouping, ordering in the Result Projector -/

/-- C2 (amended): in the Result Projector the requested kind filter is
compared literally against each document's lower-cased kind — the
comparison is case-insensitive in the document's kind but
case-sensitive in the request, so only a lower-cased request matches.
Grouping keys are the lower-cased kind string: looking any key up in
the group map yields exactly the kept documents of that lower-cased
kind, in input order.  The groups are emitted in lexicographic
byte-order of the lower-cased kind keys, and a key is emitted iff some
document passes the filter with that lower-cased kind. -/
theorem filterResources_spec (manifests : List Resource) (resKind : GoStr) :
    (∀ k, assocLookup (filterResources manifests resKind) k =
      if keptWithKind resKind k manifests = [] then none
      else some (keptWithKind resKind k manifests)) ∧
    List.Chain' (fun a b => strLeB a b = true)
      (printedKinds (filterResources manifests resKind)) ∧
    (∀ k, k ∈ printedKinds (filterResources manifests resKind) ↔
      ∃ d ∈ manifests, (resKind = [] ∨ resKind = toLowerStr d.kind) ∧ toLowerStr d.kind = k) := by
  have hlook : ∀ k, assocLookup (filterResources manifests resKind) k =
      if keptWithKind resKind k manifests = [] then none
      else some (keptWithKind resKind k manifests) := by
    intro k
    have h := filterResources_lookup_general resKind manifests [] k
    simpa [filterResources, assocLookup] using h
  refine ⟨hlook, ?_, ?_⟩
  · exact chain'_sortStrs _
  · intro k
    rw [printedKinds, mem_sortStrs]
    constructor
    · intro hmem
      have hne : assocLookup (filterResources manifests resKind) k ≠ none := fun he =>
        absurd hmem ((assocLookup_eq_none_iff _ k).mp he)
      rw [hlook k] at hne
      have hkept : keptWithKind resKind k manifests ≠ [] := by
        intro he
        rw [if_pos he] at hne
        exact hne rfl
      obtain ⟨d, hd⟩ := List.exists_mem_of_ne_nil _ hkept
      rw [keptWithKind, List.mem_filter] at hd
      exact ⟨d, hd.1, by simpa using hd.2⟩
    · rintro ⟨d, hdm, hcond⟩
      have hd : d ∈ keptWithKind resKind k manifests := by
        rw [keptWithKind, List.mem_filter]
        exact ⟨hdm, by simpa using hcond⟩
      have hkept : keptWithKind resKind k manifests ≠ [] := by
        intro he
        rw [he] at hd
        exact absurd hd (List.not_mem_nil d)
      have hne : assocLookup (filterResources manifests resKind) k ≠ none := by
        rw [hlook k, if_neg hkept]
        exact Option.some_ne_none _
      by_contra hnotmem
      exact hne ((assocLookup_eq_none_iff _ k).mpr hnotmem)

/-- C2 counterexample: a document of kind `Deployment` exists, but
requesting the kind spelled exactly `Deployment` (a letter case other
than all-lower) matches nothing — the group map comes out empty —
while the all-lower request `deployment` matches it.  The requested
kind is therefore not compared case-insensitively. -/
theorem filterResources_uppercase_request_matches_nothing :
    filterResources [⟨gs "Deployment", gs "app"⟩] (gs "Deployment") = [] ∧
    filterResources [⟨gs "Deployment", gs "app"⟩] (gs "deployment") =
      [(gs "deployment", [⟨gs "Deployment", gs "app"⟩])] := by decide

theorem filterResources_spec_witness :
    assocLookup (filterResources [⟨gs "Deployment", gs "a"⟩] []) (gs "deployment") =
      some [⟨gs "Deployment", gs "a"⟩] := by
  have h := (filterResources_spec [⟨gs "Deployment", gs "a"⟩] []).1 (gs "deployment")
  rw [h]
  decide

/-! ## Local working-tree probe and local-origin detection -/

/-- The ambient working tree, as the outcomes of the three probe
commands the code shells out to: `git config --get remote.origin.url`
(`none` = not in a repository or no origin configured),
`git rev-parse --show-toplevel` (`none` = command failed), and
`git -C path rev-parse HEAD` per path (`none` = command failed).
Each `some` value is the command's raw standard output. -/
structure GitEnv where
  remoteOriginURL : Option GoStr
  showToplevel : Option GoStr
  headSHA : GoStr → Option GoStr

/-- The three return values of `preview.isLocalRepository`:
`(isLocal bool, localPath string, error)`, with the error modelled as
present/absent. -/
structure LocalCheck where
  isLocal : Bool
  path : GoStr
  errored : Bool
deriving DecidableEq

/-- The Local Origin Detector `preview.isLocalRepository`: read the current remote, compare both
URLs under `normalizeGitURL`; on a match resolve the tree's top-level
root (a failure there is the only error); otherwise `(false, "", nil)`. -/
def isLocalRepository (env : GitEnv) (repoURL : GoStr) : LocalCheck :=
  match env.remoteOriginURL with
  | none => ⟨false, [], false⟩
  | some output =>
    if normalizeGitURL (trimSpace output) = normalizeGitURL repoURL then
      match env.showToplevel with
      | none => ⟨false, [], true⟩
      | some rootDir => ⟨true, trimSpace rootDir, false⟩
    else ⟨false, [], false⟩

/-- Model of `preview.resolveLocalRevision`: `git -C repoPath rev-parse HEAD`,
trimmed; on failure an error naming the offending path. -/
def resolveLocalRevision (env : GitEnv) (repoPath : GoStr) : Except GoStr GoStr :=
  match env.headSHA repoPath with
  | none => Except.error (gs "failed to resolve HEAD in " ++ repoPath)
  | some output => Except.ok (trimSpace output)

/-- One iteration of the `preview.resolveLocalRevisions` loop: start
from the unchanged source; skip non-local and chart sources; record
the local path; substitute the resolved HEAD revision, keeping the
original `targetRevision` when resolution fails. -/
def resolveOne (env : GitEnv) (source : ApplicationSource) : ApplicationSource × GoStr :=
  let chk := isLocalRepository env source.repoURL
  if ¬ chk.isLocal ∨ source.chart ≠ [] then (source, [])
  else
    match resolveLocalRevision env chk.path with
    | Except.error _ => (source, chk.path)
    | Except.ok sha => ({source with targetRevision := sha}, chk.path)

/-- Model of `preview.resolveLocalRevisions`: the resolved copies and the local
paths, one entry per source (`""` when not locally bound). -/
def resolveLocalRevisions (env : GitEnv) (sources : List ApplicationSource) (_appName : GoStr) :
    List ApplicationSource × List GoStr :=
  ((sources.map (resolveOne env)).map Prod.fst, (sources.map (resolveOne env)).map Prod.snd)

/-- A repository record `argoappv1.Repository`, restricted to the fields the core sets:
`Repo`, `Type`, `Username`, `Password`. -/
structure Repository where
  repo : GoStr
  repoType : GoStr
  username : GoStr
  password : GoStr
deriving DecidableEq

/-- Model of `filepath.ToSlash`, which replaces the OS path separator by `/`; on the
build's OS the separator already is `/`, so it is the identity. -/
def toSlash (p : GoStr) : GoStr := p

/-- Model of `preview.createRepoOverride`: `file://` override for locally bound
sources, otherwise the remote origin with looked-up credentials
(`FindRepoUsername` / `FindRepoPassword` are the external credential
resolver, passed in as `creds`). -/
def createRepoOverride (creds : GoStr → GoStr × GoStr) (sourceCopy : ApplicationSource)
    (localPath : GoStr) (_sourceIndex : Nat) (_appName : GoStr) : Repository :=
  if localPath ≠ [] then
    { repo := gs "file://" ++ toSlash localPath, repoType := gs "git",
      username := [], password := [] }
  else
    { repo := sourceCopy.repoURL, repoType := [],
      username := (creds sourceCopy.repoURL).1, password := (creds sourceCopy.repoURL).2 }

/-- A reference target `argoappv1.RefTarget` as `buildRefSources` fills it: revision,
repository (only its `Repo` field) and chart — deliberately no path. -/
structure RefTarget where
  targetRevision : GoStr
  repo : Repository
  chart : GoStr
deriving DecidableEq

/-- The `RefTarget` literal `buildRefSources` builds from one source. -/
def mkRefTarget (source : ApplicationSource) : RefTarget :=
  { targetRevision := source.targetRevision,
    repo := { repo := source.repoURL, repoType := [], username := [], password := [] },
    chart := source.chart }

/-- Go map assignment `m[k] = v` on an association-list model:
overwrite the key if present, append otherwise. -/
def refInsert (m : List (GoStr × RefTarget)) (k : GoStr) (v : RefTarget) :
    List (GoStr × RefTarget) :=
  match m with
  | [] => [(k, v)]
  | (k', v') :: rest => if k' = k then (k', v) :: rest else (k', v') :: refInsert rest k v

/-- Go map indexing for the reference table. -/
def refLookup (m : List (GoStr × RefTarget)) (k : GoStr) : Option RefTarget :=
  match m with
  | [] => none
  | (k', v) :: rest => if k' = k then some v else refLookup rest k

/-- The Reference Table Builder `preview.buildRefSources`: for every source with a non-empty `Ref`,
assign key `"$" + Ref` to its target. -/
def buildRefSources (sources : List ApplicationSource) : List (GoStr × RefTarget) :=
  sources.foldl (fun m source =>
    if source.ref ≠ [] then refInsert m (gs "$" ++ source.ref) (mkRefTarget source) else m) []

example : refLookup (buildRefSources
    [⟨gs "https://a/b", gs "abc123", gs "p", [], gs "values"⟩,
     ⟨gs "https://a/b", gs "main", gs "q", [], []⟩]) (gs "$values") =
    some ⟨gs "abc123", ⟨gs "https://a/b", [], [], []⟩, []⟩ := by decide
example : buildRefSources [⟨gs "https://a/b", gs "main", [], [], []⟩] = [] := by decide

/-! ## Claim C7: the Local Origin Detector's outcome space -/

/-- C7: `isLocalRepository` returns `(false, "", no error)` both when no
repository context is available (no remote configured / not in a tree)
and when the normalized current remote differs from the normalized
origin; it errors exactly when the normalized comparison matched but
top-level root resolution failed; on a successful match it returns
`isLocal = true` with the tree's top-level root. -/
theorem isLocalRepository_spec (env : GitEnv) (repoURL : GoStr) :
    (env.remoteOriginURL = none → isLocalRepository env repoURL = ⟨false, [], false⟩) ∧
    (∀ out, env.remoteOriginURL = some out →
      normalizeGitURL (trimSpace out) ≠ normalizeGitURL repoURL →
      isLocalRepository env repoURL = ⟨false, [], false⟩) ∧
    (∀ out, env.remoteOriginURL = some out →
      normalizeGitURL (trimSpace out) = normalizeGitURL repoURL →
      env.showToplevel = none →
      isLocalRepository env repoURL = ⟨false, [], true⟩) ∧
    (∀ out root, env.remoteOriginURL = some out →
      normalizeGitURL (trimSpace out) = normalizeGitURL repoURL →
      env.showToplevel = some root →
      isLocalRepository env repoURL = ⟨true, trimSpace root, false⟩) ∧
    ((isLocalRepository env repoURL).errored = true ↔
      ∃ out, env.remoteOriginURL = some out ∧
        normalizeGitURL (trimSpace out) = normalizeGitURL repoURL ∧
        env.showToplevel = none) := by
  refine ⟨?_, ?_, ?_, ?_, ?_⟩
  · intro h; simp [isLocalRepository, h]
  · intro out hout hne; simp [isLocalRepository, hout, hne]
  · intro out hout heq htop; simp [isLocalRepository, hout, heq, htop]
  · intro out root hout heq htop; simp [isLocalRepository, hout, heq, htop]
  · constructor
    · intro he
      cases hr : env.remoteOriginURL with
      | none => rw [isLocalRepository] at he; rw [hr] at he; exact absurd he (by simp)
      | some out =>
        by_cases heq : normalizeGitURL (trimSpace out) = normalizeGitURL repoURL
        · cases ht : env.showToplevel with
          | none => exact ⟨out, rfl, heq, rfl⟩
          | some root => simp [isLocalRepository, hr, heq, ht] at he
        · simp [isLocalRepository, hr, heq] at he
    · rintro ⟨out, hout, heq, htop⟩
      simp [isLocalRepository, hout, heq, htop]

theorem isLocalRepository_spec_witness :
    isLocalRepository ⟨some (gs "git@h.com:a/b"), none, fun _ => none⟩ (gs "https://h.com/a/b") =
      ⟨false, [], true⟩ :=
  (isLocalRepository_spec ⟨some (gs "git@h.com:a/b"), none, fun _ => none⟩
    (gs "https://h.com/a/b")).2.2.1 (gs "git@h.com:a/b") rfl (by decide) rfl

/-! ## Claim C4: per-source local binding in the multi-source path -/

theorem resolveLocalRevisions_getElem (env : GitEnv) (sources : List ApplicationSource)
    (appName : GoStr) (i : Nat) (s : ApplicationSource) (h : sources[i]? = some s) :
    (resolveLocalRevisions env sources appName).1[i]? = some (resolveOne env s).1 ∧
    (resolveLocalRevisions env sources appName).2[i]? = some (resolveOne env s).2 := by
  unfold resolveLocalRevisions
  constructor <;> simp [List.getElem?_map, h]

/-- C4 (amended): after validation, the multi-source path resolves
local bindings per source, but only for non-registry sources: a
non-chart source whose origin matches the working tree's remote under
normalized equality gets the resolved revision (when revision
resolution succeeds) and a `file://` origin override built from the
recorded local path; a chart (registry) source is exempted — it is
returned unchanged with no local path, hence a remote override with
looked-up credentials — as is any source whose origin does not match. -/
theorem resolveLocalRevisions_spec (env : GitEnv) (creds : GoStr → GoStr × GoStr)
    (sources : List ApplicationSource) (appName : GoStr) :
    (resolveLocalRevisions env sources appName).1.length = sources.length ∧
    (resolveLocalRevisions env sources appName).2.length = sources.length ∧
    (∀ (i : Nat) (s : ApplicationSource), sources[i]? = some s → s.chart ≠ [] →
      (resolveLocalRevisions env sources appName).1[i]? = some s ∧
      (resolveLocalRevisions env sources appName).2[i]? = some [] ∧
      createRepoOverride creds s [] i appName =
        ⟨s.repoURL, [], (creds s.repoURL).1, (creds s.repoURL).2⟩) ∧
    (∀ (i : Nat) (s : ApplicationSource), sources[i]? = some s → (isLocalRepository env s.repoURL).isLocal = false →
      (resolveLocalRevisions env sources appName).1[i]? = some s ∧
      (resolveLocalRevisions env sources appName).2[i]? = some []) ∧
    (∀ (i : Nat) (s : ApplicationSource), sources[i]? = some s → s.chart = [] →
      (isLocalRepository env s.repoURL).isLocal = true →
      ∀ sha, resolveLocalRevision env (isLocalRepository env s.repoURL).path = Except.ok sha →
        (resolveLocalRevisions env sources appName).1[i]? =
          some {s with targetRevision := sha} ∧
        (resolveLocalRevisions env sources appName).2[i]? =
          some (isLocalRepository env s.repoURL).path) ∧
    (∀ (s : ApplicationSource) (path : GoStr) (i : Nat), path ≠ [] →
      createRepoOverride creds s path i appName =
        ⟨gs "file://" ++ toSlash path, gs "git", [], []⟩) := by
  refine ⟨by simp [resolveLocalRevisions], by simp [resolveLocalRevisions], ?_, ?_, ?_, ?_⟩
  · intro i s h hc
    obtain ⟨h1, h2⟩ := resolveLocalRevisions_getElem env sources appName i s h
    have hro : resolveOne env s = (s, []) := by
      simp [resolveOne, hc]
    rw [hro] at h1 h2
    exact ⟨h1, h2, by simp [createRepoOverride]⟩
  · intro i s h hl
    obtain ⟨h1, h2⟩ := resolveLocalRevisions_getElem env sources appName i s h
    have hro : resolveOne env s = (s, []) := by
      simp [resolveOne, hl]
    rw [hro] at h1 h2
    exact ⟨h1, h2⟩
  · intro i s h hc hl sha hsha
    obtain ⟨h1, h2⟩ := resolveLocalRevisions_getElem env sources appName i s h
    have hro : resolveOne env s =
        ({s with targetRevision := sha}, (isLocalRepository env s.repoURL).path) := by
      simp [resolveOne, hc, hl, hsha]
    rw [hro] at h1 h2
    exact ⟨h1, h2⟩
  · intro s path i hp
    simp [createRepoOverride, hp]

/-- C4 counterexample: a registry (chart) source whose origin matches
the working tree's remote under normalized equality (verbatim, even)
is exempted from per-source resolution: its resolved copy keeps the
original `targetRevision` (although HEAD resolution would succeed),
its local path stays empty, and its override is the remote origin with
credentials, not a local filesystem reference. -/
theorem resolveLocalRevisions_chart_source_exempt :
    (isLocalRepository ⟨some (gs "https://github.com/o/r"), some (gs "/repo"),
        fun _ => some (gs "sha1")⟩ (gs "https://github.com/o/r")).isLocal = true ∧
    resolveLocalRevision ⟨some (gs "https://github.com/o/r"), some (gs "/repo"),
        fun _ => some (gs "sha1")⟩ (gs "/repo") = Except.ok (gs "sha1") ∧
    resolveLocalRevisions ⟨some (gs "https://github.com/o/r"), some (gs "/repo"),
        fun _ => some (gs "sha1")⟩
        [⟨gs "https://github.com/o/r", gs "main", [], gs "mychart", []⟩] (gs "app") =
      ([⟨gs "https://github.com/o/r", gs "main", [], gs "mychart", []⟩], [[]]) ∧
    createRepoOverride (fun _ => ([], []))
        ⟨gs "https://github.com/o/r", gs "main", [], gs "mychart", []⟩ [] 0 (gs "app") =
      ⟨gs "https://github.com/o/r", [], [], []⟩ :=
  ⟨rfl, rfl, rfl, rfl⟩

theorem resolveLocalRevisions_spec_witness :
    (resolveLocalRevisions ⟨some (gs "https://h/a/b"), some (gs "/repo"),
        fun _ => some (gs "abc123")⟩
      [⟨gs "https://h/a/b", gs "main", [], [], []⟩] (gs "app")).1[0]? =
      some ⟨gs "https://h/a/b", gs "abc123", [], [], []⟩ :=
  ((resolveLocalRevisions_spec ⟨some (gs "https://h/a/b"), some (gs "/repo"),
      fun _ => some (gs "abc123")⟩ (fun _ => ([], []))
      [⟨gs "https://h/a/b", gs "main", [], [], []⟩] (gs "app")).2.2.2.2.1
    0 ⟨gs "https://h/a/b", gs "main", [], [], []⟩ rfl rfl (by decide)
    (gs "abc123") rfl).1

/-! ## Plan Orchestrator: single- and multi-source manifest generation -/

/-- An `argoappv1.Application`, restricted to the fields the core
reads: name, destination namespace and the singular/plural source
representations. -/
structure Application where
  name : GoStr
  destNamespace : GoStr
  source : Option ApplicationSource
  sources : List ApplicationSource

/-- ArgoCD v3 helper `app.Spec.HasMultipleSources()`: true iff the
plural `Sources` list is non-empty (external collaborator, described
by the spec's external-interface section). -/
def Application.hasMultipleSources (app : Application) : Bool := decide (0 < app.sources.length)

/-- ArgoCD v3 helper `app.Spec.GetSources()`: the plural list when
present, else the singular source as a one-element list, else empty
(external collaborator, described by the spec's external-interface
section). -/
def Application.getSources (app : Application) : List ApplicationSource :=
  if app.hasMultipleSources then app.sources
  else match app.source with
    | some s => [s]
    | none => []

/-- The `repoapiclient.ManifestRequest` fields the core fills in. -/
structure ManifestRequest where
  applicationSource : ApplicationSource
  appName : GoStr
  destNamespace : GoStr
  noCache : Bool
  hasMultipleSources : Bool
  refSources : List (GoStr × RefTarget)
  repo : Repository
  projectName : GoStr

/-- Errors of `generateSingleSourceManifest`: the no-valid-source
configuration error, or a wrapped rendering failure. -/
inductive SingleGenError where
  | invalidSource
  | renderFailed (msg : GoStr)

/-- Errors of `generateMultiSourceManifests`: empty source list,
constraint violation, or a rendering failure wrapped with the failing
source's zero-based index. -/
inductive MultiGenError where
  | noSources
  | constraint (e : ValidationError)
  | renderFailed (index : Nat) (msg : GoStr)

/-- Model of `preview.generateSingleSourceManifest`.  The external renderer
(`repoService.GenerateManifest`) is the parameter `render`; the pair's
second component is the sequence of renderer invocations the call
performs (its observable effect trace). -/
def generateSingleSourceManifest (render : ManifestRequest → Except GoStr (List GoStr))
    (env : GitEnv) (creds : GoStr → GoStr × GoStr) (app : Application) :
    Except SingleGenError (List GoStr) × List ManifestRequest :=
  match app.source with
  | none => (Except.error SingleGenError.invalidSource, [])
  | some src =>
    if src.repoURL = [] then (Except.error SingleGenError.invalidSource, [])
    else
      let chk := isLocalRepository env src.repoURL
      let applicationSource :=
        if chk.isLocal then
          match resolveLocalRevision env chk.path with
          | Except.error _ => src
          | Except.ok sha => {src with targetRevision := sha}
        else src
      let repoOverride : Repository :=
        if chk.isLocal then
          { repo := gs "file://" ++ toSlash chk.path, repoType := gs "git",
            username := [], password := [] }
        else
          { repo := src.repoURL, repoType := [],
            username := (creds src.repoURL).1, password := (creds src.repoURL).2 }
      let req : ManifestRequest :=
        { applicationSource := applicationSource, appName := app.name,
          destNamespace := app.destNamespace, noCache := true, hasMultipleSources := false,
          refSources := [], repo := repoOverride, projectName := gs "applications" }
      match render req with
      | Except.error e => (Except.error (SingleGenError.renderFailed e), [req])
      | Except.ok ms => (Except.ok ms, [req])

/-- The per-source requests the multi-source loop issues, in source
order: the resolved copy of source `i`, the override from its local
path, the shared reference table, the multi-source flag. -/
def multiSourceRequests (env : GitEnv) (creds : GoStr → GoStr × GoStr) (app : Application) :
    List ManifestRequest :=
  let sources := app.getSources
  let rl := resolveLocalRevisions env sources app.name
  let refs := buildRefSources rl.1
  (rl.1.zip rl.2).enum.map (fun p =>
    { applicationSource := p.2.1, appName := app.name, destNamespace := app.destNamespace,
      noCache := true, hasMultipleSources := true, refSources := refs,
      repo := createRepoOverride creds p.2.1 p.2.2 p.1 app.name,
      projectName := gs "applications" })

/-- The rendering loop of `generateMultiSourceManifests`: call the
renderer once per request, in order, concatenating document lists; on
the first failure stop and report its index (offset by `start`),
returning no documents.  The second component is the trace of
performed calls. -/
def renderAll (render : ManifestRequest → Except GoStr (List GoStr)) :
    List ManifestRequest → Nat → Except (Nat × GoStr) (List GoStr) × List ManifestRequest
  | [], _ => (Except.ok [], [])
  | r :: rest, start =>
    match render r with
    | Except.error e => (Except.error (start, e), [r])
    | Except.ok ms =>
      match renderAll render rest (start + 1) with
      | (Except.error ie, tr) => (Except.error ie, r :: tr)
      | (Except.ok more, tr) => (Except.ok (ms ++ more), r :: tr)

/-- Model of `preview.generateMultiSourceManifests`: fail on an empty source
list, validate the same-origin constraint, resolve local revisions,
build the reference table from the resolved list, then render each
source in order, aborting with the failing index on the first error. -/
def generateMultiSourceManifests (render : ManifestRequest → Except GoStr (List GoStr))
    (env : GitEnv) (creds : GoStr → GoStr × GoStr) (app : Application) :
    Except MultiGenError (List GoStr) × List ManifestRequest :=
  if (app.getSources).length = 0 then (Except.error MultiGenError.noSources, [])
  else
    match validateGitSourcesConstraint app.getSources with
    | some e => (Except.error (MultiGenError.constraint e), [])
    | none =>
      match renderAll render (multiSourceRequests env creds app) 0 with
      | (Except.error (i, e), tr) => (Except.error (MultiGenError.renderFailed i e), tr)
      | (Except.ok ms, tr) => (Except.ok ms, tr)

/-- The concatenation, in request order, of the document lists the
renderer returns (used to state what the success path produces). -/
def renderedDocs (render : ManifestRequest → Except GoStr (List GoStr)) :
    List ManifestRequest → List GoStr
  | [] => []
  | r :: rest => ((render r).toOption.getD []) ++ renderedDocs render rest

theorem renderedDocs_length (render : ManifestRequest → Except GoStr (List GoStr)) :
    ∀ reqs : List ManifestRequest,
      (renderedDocs render reqs).length =
        (reqs.map (fun r => ((render r).toOption.getD []).length)).sum := by
  intro reqs
  induction reqs with
  | nil => rfl
  | cons r rest ih => simp [renderedDocs, ih]

theorem renderAll_ok (render : ManifestRequest → Except GoStr (List GoStr)) :
    ∀ (reqs : List ManifestRequest) (start : Nat),
      (∀ r ∈ reqs, ∃ ms, render r = Except.ok ms) →
      renderAll render reqs start = (Except.ok (renderedDocs render reqs), reqs) := by
  intro reqs
  induction reqs with
  | nil => intro start _; rfl
  | cons r rest ih =>
    intro start h
    obtain ⟨ms, hms⟩ := h r (List.mem_cons_self r rest)
    simp only [renderAll, hms]
    rw [ih (start+1) (fun t ht => h t (List.mem_cons_of_mem r ht))]
    simp [renderedDocs, hms, Except.toOption]

theorem renderAll_err (render : ManifestRequest → Except GoStr (List GoStr)) :
    ∀ (reqs : List ManifestRequest) (start : Nat) (j : Nat) (e : GoStr),
      ∀ hj : j < reqs.length,
      render (reqs.get ⟨j, hj⟩) = Except.error e →
      (∀ k, ∀ hk : k < j, ∃ ms, render (reqs.get ⟨k, lt_trans hk hj⟩) = Except.ok ms) →
      renderAll render reqs start = (Except.error (start + j, e), reqs.take (j+1)) := by
  intro reqs
  induction reqs with
  | nil => intro start j e hj; exact absurd hj (Nat.not_lt_zero j)
  | cons r rest ih =>
    intro start j e hj herr hok
    cases j with
    | zero =>
      simp only [List.get] at herr
      simp [renderAll, herr]
    | succ j' =>
      obtain ⟨ms, hms⟩ := hok 0 (Nat.succ_pos j')
      simp only [List.get] at hms herr
      simp only [renderAll, hms]
      rw [ih (start+1) j' e (Nat.lt_of_succ_lt_succ hj) herr
        (fun k hk => by
          have := hok (k+1) (Nat.succ_lt_succ hk)
          simpa using this)]
      have harith : start + 1 + j' = start + (j' + 1) := by omega
      simp [harith, List.take_succ_cons]

theorem multiSourceRequests_length (env : GitEnv) (creds : GoStr → GoStr × GoStr)
    (app : Application) :
    (multiSourceRequests env creds app).length = app.getSources.length := by
  unfold multiSourceRequests
  simp [resolveLocalRevisions]

theorem multiSourceRequests_getElem (env : GitEnv) (creds : GoStr → GoStr × GoStr)
    (app : Application) (i : Nat) (s : ApplicationSource) (p : GoStr)
    (hs : (resolveLocalRevisions env app.getSources app.name).1[i]? = some s)
    (hp : (resolveLocalRevisions env app.getSources app.name).2[i]? = some p) :
    (multiSourceRequests env creds app)[i]? = some
      { applicationSource := s, appName := app.name, destNamespace := app.destNamespace,
        noCache := true, hasMultipleSources := true,
        refSources := buildRefSources (resolveLocalRevisions env app.getSources app.name).1,
        repo := createRepoOverride creds s p i app.name,
        projectName := gs "applications" } := by
  unfold multiSourceRequests
  have hz : ((resolveLocalRevisions env app.getSources app.name).1.zip
      (resolveLocalRevisions env app.getSources app.name).2)[i]? = some (s, p) :=
    List.getElem?_zip_eq_some.mpr ⟨hs, hp⟩
  simp [List.getElem?_map, List.getElem?_enum, hz]

/-! ## Claim C6: one renderer call per source, ordered concatenation, fail-fast -/

/-- C6: after the empty-list and constraint checks pass,
`generateMultiSourceManifests` issues exactly one renderer request per
source, in original source order (the request list has one entry per
source).  If every call succeeds the pass returns the concatenation of
the per-source document lists in that order — its length is the sum of
the per-call document counts — and the trace shows one call per
source.  If a call fails (all earlier ones having succeeded), the pass
stops there and returns an error carrying that source's zero-based
index and no document list; later sources are never rendered. -/
theorem generateMultiSourceManifests_spec
    (render : ManifestRequest → Except GoStr (List GoStr)) (env : GitEnv)
    (creds : GoStr → GoStr × GoStr) (app : Application)
    (hne : app.getSources.length ≠ 0)
    (hval : validateGitSourcesConstraint app.getSources = none) :
    (multiSourceRequests env creds app).length = app.getSources.length ∧
    ((∀ r ∈ multiSourceRequests env creds app, ∃ ms, render r = Except.ok ms) →
      generateMultiSourceManifests render env creds app =
        (Except.ok (renderedDocs render (multiSourceRequests env creds app)),
          multiSourceRequests env creds app) ∧
      (renderedDocs render (multiSourceRequests env creds app)).length =
        ((multiSourceRequests env creds app).map
          (fun r => ((render r).toOption.getD []).length)).sum) ∧
    (∀ (j : Nat) (e : GoStr), ∀ hj : j < (multiSourceRequests env creds app).length,
      render ((multiSourceRequests env creds app).get ⟨j, hj⟩) = Except.error e →
      (∀ k, ∀ hk : k < j, ∃ ms,
        render ((multiSourceRequests env creds app).get ⟨k, lt_trans hk hj⟩) = Except.ok ms) →
      generateMultiSourceManifests render env creds app =
        (Except.error (MultiGenError.renderFailed j e),
          (multiSourceRequests env creds app).take (j+1))) := by
  refine ⟨multiSourceRequests_length env creds app, ?_, ?_⟩
  · intro hok
    refine ⟨?_, renderedDocs_length render _⟩
    unfold generateMultiSourceManifests
    rw [if_neg hne]
    simp only [hval]
    rw [renderAll_ok render _ 0 hok]
  · intro j e hj herr hok
    unfold generateMultiSourceManifests
    rw [if_neg hne]
    simp only [hval]
    rw [renderAll_err render _ 0 j e hj herr hok]
    simp

theorem generateMultiSourceManifests_spec_witness :
    generateMultiSourceManifests (fun r => Except.ok [r.applicationSource.path])
      ⟨none, none, fun _ => none⟩ (fun _ => ([], []))
      ⟨gs "app", gs "ns", none,
        [⟨gs "https://a/b", gs "main", gs "p1", [], []⟩,
         ⟨gs "https://a/b", gs "main", gs "p2", [], gs "configs"⟩]⟩ =
      (Except.ok (renderedDocs (fun r => Except.ok [r.applicationSource.path])
          (multiSourceRequests ⟨none, none, fun _ => none⟩ (fun _ => ([], []))
            ⟨gs "app", gs "ns", none,
              [⟨gs "https://a/b", gs "main", gs "p1", [], []⟩,
               ⟨gs "https://a/b", gs "main", gs "p2", [], gs "configs"⟩]⟩)),
        multiSourceRequests ⟨none, none, fun _ => none⟩ (fun _ => ([], []))
          ⟨gs "app", gs "ns", none,
            [⟨gs "https://a/b", gs "main", gs "p1", [], []⟩,
             ⟨gs "https://a/b", gs "main", gs "p2", [], gs "configs"⟩]⟩) :=
  ((generateMultiSourceManifests_spec (fun r => Except.ok [r.applicationSource.path])
      ⟨none, none, fun _ => none⟩ (fun _ => ([], []))
      ⟨gs "app", gs "ns", none,
        [⟨gs "https://a/b", gs "main", gs "p1", [], []⟩,
         ⟨gs "https://a/b", gs "main", gs "p2", [], gs "configs"⟩]⟩
      (by decide) (by decide)).2.1
    (fun r _ => ⟨[r.applicationSource.path], rfl⟩)).1

/-! ## Claim C8: revision-resolution failure degrades gracefully -/

/-- The renderer request the single-source path issues for a locally
bound source whose revision resolution failed: the original source
record (original revision selector) with the local `file://`
override. -/
def singleLocalRequest (env : GitEnv) (app : Application) (src : ApplicationSource) :
    ManifestRequest :=
  { applicationSource := src, appName := app.name, destNamespace := app.destNamespace,
    noCache := true, hasMultipleSources := false, refSources := [],
    repo := ⟨gs "file://" ++ toSlash (isLocalRepository env src.repoURL).path, gs "git", [], []⟩,
    projectName := gs "applications" }

/-- C8: when HEAD resolution fails for a locally-detected source, every
caller degrades gracefully.  In the multi-source pass the source's
resolved copy keeps its original `targetRevision` (while still keeping
its local path, hence its local override), the resolved list still has
an entry for every source and every other source is processed
normally.  In the single-source pass the renderer is still invoked,
with the original source (original revision selector) and the local
`file://` override, and the pass's outcome is decided by the renderer
alone — the resolution failure never aborts it. -/
theorem resolveRevisionFailure_graceful (env : GitEnv) (creds : GoStr → GoStr × GoStr)
    (render : ManifestRequest → Except GoStr (List GoStr)) :
    (∀ (sources : List ApplicationSource) (appName : GoStr) (i : Nat) (s : ApplicationSource),
      sources[i]? = some s → s.chart = [] →
      (isLocalRepository env s.repoURL).isLocal = true →
      ∀ e, resolveLocalRevision env (isLocalRepository env s.repoURL).path = Except.error e →
        (resolveLocalRevisions env sources appName).1[i]? = some s ∧
        (resolveLocalRevisions env sources appName).2[i]? =
          some (isLocalRepository env s.repoURL).path ∧
        (resolveLocalRevisions env sources appName).1.length = sources.length ∧
        (∀ (j : Nat) (t : ApplicationSource), sources[j]? = some t →
          (resolveLocalRevisions env sources appName).1[j]? = some (resolveOne env t).1)) ∧
    (∀ (app : Application) (src : ApplicationSource), app.source = some src →
      src.repoURL ≠ [] →
      (isLocalRepository env src.repoURL).isLocal = true →
      ∀ e, resolveLocalRevision env (isLocalRepository env src.repoURL).path = Except.error e →
        (∀ ms, render (singleLocalRequest env app src) = Except.ok ms →
          generateSingleSourceManifest render env creds app =
            (Except.ok ms, [singleLocalRequest env app src])) ∧
        (∀ e2, render (singleLocalRequest env app src) = Except.error e2 →
          generateSingleSourceManifest render env creds app =
            (Except.error (SingleGenError.renderFailed e2), [singleLocalRequest env app src]))) := by
  constructor
  · intro sources appName i s h hc hl e herr
    obtain ⟨h1, h2⟩ := resolveLocalRevisions_getElem env sources appName i s h
    have hro : resolveOne env s = (s, (isLocalRepository env s.repoURL).path) := by
      simp [resolveOne, hc, hl, herr]
    rw [hro] at h1 h2
    refine ⟨h1, h2, by simp [resolveLocalRevisions], ?_⟩
    intro j t ht
    exact (resolveLocalRevisions_getElem env sources appName j t ht).1
  · intro app src happ hrepo hl e herr
    constructor
    · intro ms hrender
      unfold generateSingleSourceManifest
      simp only [happ]
      rw [if_neg hrepo]
      simp only [hl, if_true, herr]
      simp only [singleLocalRequest] at hrender
      simp only [hrender, singleLocalRequest]
    · intro e2 hrender
      unfold generateSingleSourceManifest
      simp only [happ]
      rw [if_neg hrepo]
      simp only [hl, if_true, herr]
      simp only [singleLocalRequest] at hrender
      simp only [hrender, singleLocalRequest]

theorem resolveRevisionFailure_graceful_witness :
    generateSingleSourceManifest (fun _ => Except.ok [gs "doc"])
      ⟨some (gs "https://h/a/b"), some (gs "/repo"), fun _ => none⟩ (fun _ => ([], []))
      ⟨gs "app", gs "ns", some ⟨gs "https://h/a/b", gs "main", [], [], []⟩, []⟩ =
      (Except.ok [gs "doc"],
        [singleLocalRequest ⟨some (gs "https://h/a/b"), some (gs "/repo"), fun _ => none⟩
          ⟨gs "app", gs "ns", some ⟨gs "https://h/a/b", gs "main", [], [], []⟩, []⟩
          ⟨gs "https://h/a/b", gs "main", [], [], []⟩]) :=
  (((resolveRevisionFailure_graceful
      ⟨some (gs "https://h/a/b"), some (gs "/repo"), fun _ => none⟩ (fun _ => ([], []))
      (fun _ => Except.ok [gs "doc"])).2
    ⟨gs "app", gs "ns", some ⟨gs "https://h/a/b", gs "main", [], [], []⟩, []⟩
    ⟨gs "https://h/a/b", gs "main", [], [], []⟩ rfl (by decide) (by decide)
    (gs "failed to resolve HEAD in " ++ gs "/repo") rfl).1 [gs "doc"] rfl)

/-! ## Reference Table: lookup and size characterization -/

/-- The target of the **last** source in list order whose non-empty
`referenceName` produces key `k` (later map assignments overwrite
earlier ones). -/
def lastTarget (sources : List ApplicationSource) (k : GoStr) : Option RefTarget :=
  match sources with
  | [] => none
  | s :: rest =>
    match lastTarget rest k with
    | some t => some t
    | none => if s.ref ≠ [] ∧ gs "$" ++ s.ref = k then some (mkRefTarget s) else none

theorem refLookup_refInsert_self (m : List (GoStr × RefTarget)) (k : GoStr) (v : RefTarget) :
    refLookup (refInsert m k v) k = some v := by
  induction m with
  | nil => simp [refInsert, refLookup]
  | cons p rest ih =>
    obtain ⟨k', v'⟩ := p
    by_cases h : k' = k
    · subst h; simp [refInsert, refLookup]
    · simp [refInsert, refLookup, h, ih]

theorem refLookup_refInsert_ne (m : List (GoStr × RefTarget)) (k : GoStr) (v : RefTarget)
    (kq : GoStr) (h : k ≠ kq) :
    refLookup (refInsert m k v) kq = refLookup m kq := by
  induction m with
  | nil => simp [refInsert, refLookup, h]
  | cons p rest ih =>
    obtain ⟨k', v'⟩ := p
    by_cases h' : k' = k
    · subst h'; simp [refInsert, refLookup, h]
    · by_cases h'' : k' = kq
      · simp [refInsert, refLookup, h', h'', Ne.symm h]
      · simp [refInsert, refLookup, h', h'', ih]

theorem buildRefLoop_lookup :
    ∀ (sources : List ApplicationSource) (m : List (GoStr × RefTarget)) (k : GoStr),
      refLookup (sources.foldl (fun m source =>
          if source.ref ≠ [] then refInsert m (gs "$" ++ source.ref) (mkRefTarget source)
          else m) m) k =
        match lastTarget sources k with
        | some t => some t
        | none => refLookup m k := by
  intro sources
  induction sources with
  | nil => intro m k; simp [lastTarget]
  | cons s rest ih =>
    intro m k
    simp only [List.foldl_cons]
    by_cases hr : s.ref ≠ []
    · rw [if_pos hr]
      by_cases hk : gs "$" ++ s.ref = k
      · rw [ih (refInsert m (gs "$" ++ s.ref) (mkRefTarget s)) k]
        subst hk
        rw [refLookup_refInsert_self]
        simp only [lastTarget]
        cases lastTarget rest (gs "$" ++ s.ref) <;> simp [hr]
      · rw [ih (refInsert m (gs "$" ++ s.ref) (mkRefTarget s)) k]
        rw [refLookup_refInsert_ne m _ _ k hk]
        simp only [lastTarget]
        have : ¬ (s.ref ≠ [] ∧ gs "$" ++ s.ref = k) := fun hc => hk hc.2
        rw [if_neg this]
        cases lastTarget rest k <;> rfl
    · rw [if_neg hr]
      rw [ih m k]
      simp only [lastTarget]
      have : ¬ (s.ref ≠ [] ∧ gs "$" ++ s.ref = k) := fun hc => hr hc.1
      rw [if_neg this]
      cases lastTarget rest k <;> rfl

theorem buildRefSources_lookup (sources : List ApplicationSource) (k : GoStr) :
    refLookup (buildRefSources sources) k = lastTarget sources k := by
  rw [buildRefSources, buildRefLoop_lookup sources [] k]
  cases lastTarget sources k <;> simp [refLookup]

theorem refInsert_keys_mem (m : List (GoStr × RefTarget)) (k : GoStr) (v : RefTarget)
    (kq : GoStr) :
    kq ∈ (refInsert m k v).map Prod.fst ↔ kq = k ∨ kq ∈ m.map Prod.fst := by
  induction m with
  | nil => simp [refInsert]
  | cons p rest ih =>
    obtain ⟨k', v'⟩ := p
    by_cases h : k' = k
    · subst h; simp [refInsert]
    · simp only [refInsert, if_neg h, List.map_cons, List.mem_cons, ih]
      tauto

theorem refInsert_keys_nodup (m : List (GoStr × RefTarget)) (k : GoStr) (v : RefTarget)
    (h : (m.map Prod.fst).Nodup) : ((refInsert m k v).map Prod.fst).Nodup := by
  induction m with
  | nil => simp [refInsert]
  | cons p rest ih =>
    obtain ⟨k', v'⟩ := p
    simp only [List.map_cons, List.nodup_cons] at h
    by_cases hk : k' = k
    · subst hk
      simpa [refInsert] using h
    · simp only [refInsert, if_neg hk, List.map_cons, List.nodup_cons]
      refine ⟨?_, ih h.2⟩
      rw [refInsert_keys_mem]
      rintro (rfl | hmem)
      · exact hk rfl
      · exact h.1 hmem

theorem refInsert_length (m : List (GoStr × RefTarget)) (k : GoStr) (v : RefTarget) :
    (refInsert m k v).length = if k ∈ m.map Prod.fst then m.length else m.length + 1 := by
  induction m with
  | nil => simp [refInsert]
  | cons p rest ih =>
    obtain ⟨k', v'⟩ := p
    by_cases h : k' = k
    · subst h; simp [refInsert]
    · simp only [refInsert, if_neg h, List.length_cons, ih, List.map_cons, List.mem_cons]
      by_cases hm : k ∈ rest.map Prod.fst
      · simp [hm, Ne.symm h]
      · simp [hm, Ne.symm h]

theorem buildRefLoop_keys_mem :
    ∀ (sources : List ApplicationSource) (m : List (GoStr × RefTarget)) (kq : GoStr),
      kq ∈ ((sources.foldl (fun m source =>
          if source.ref ≠ [] then refInsert m (gs "$" ++ source.ref) (mkRefTarget source)
          else m) m).map Prod.fst) ↔
        kq ∈ m.map Prod.fst ∨ ∃ s ∈ sources, s.ref ≠ [] ∧ gs "$" ++ s.ref = kq := by
  intro sources
  induction sources with
  | nil => intro m kq; simp
  | cons s rest ih =>
    intro m kq
    simp only [List.foldl_cons]
    by_cases hr : s.ref ≠ []
    · rw [if_pos hr, ih (refInsert m (gs "$" ++ s.ref) (mkRefTarget s)) kq]
      rw [refInsert_keys_mem]
      constructor
      · rintro ((rfl | hm) | ⟨t, ht, htr, htk⟩)
        · exact Or.inr ⟨s, List.mem_cons_self s rest, hr, rfl⟩
        · exact Or.inl hm
        · exact Or.inr ⟨t, List.mem_cons_of_mem s ht, htr, htk⟩
      · rintro (hm | ⟨t, ht, htr, htk⟩)
        · exact Or.inl (Or.inr hm)
        · rcases List.mem_cons.mp ht with rfl | ht
          · exact Or.inl (Or.inl htk.symm)
          · exact Or.inr ⟨t, ht, htr, htk⟩
    · rw [if_neg hr, ih m kq]
      constructor
      · rintro (hm | ⟨t, ht, htr, htk⟩)
        · exact Or.inl hm
        · exact Or.inr ⟨t, List.mem_cons_of_mem s ht, htr, htk⟩
      · rintro (hm | ⟨t, ht, htr, htk⟩)
        · exact Or.inl hm
        · rcases List.mem_cons.mp ht with rfl | ht
          · exact absurd htr hr
          · exact Or.inr ⟨t, ht, htr, htk⟩

theorem buildRefLoop_keys_nodup :
    ∀ (sources : List ApplicationSource) (m : List (GoStr × RefTarget)),
      (m.map Prod.fst).Nodup →
      (((sources.foldl (fun m source =>
          if source.ref ≠ [] then refInsert m (gs "$" ++ source.ref) (mkRefTarget source)
          else m) m)).map Prod.fst).Nodup := by
  intro sources
  induction sources with
  | nil => intro m h; simpa using h
  | cons s rest ih =>
    intro m h
    simp only [List.foldl_cons]
    by_cases hr : s.ref ≠ []
    · rw [if_pos hr]
      exact ih _ (refInsert_keys_nodup m _ _ h)
    · rw [if_neg hr]
      exact ih m h

/-- The keys contributed by ref-bearing sources, in list order
(duplicates included). -/
def refKeys (sources : List ApplicationSource) : List GoStr :=
  (sources.filter (fun s => decide (s.ref ≠ []))).map (fun s => gs "$" ++ s.ref)

theorem mem_refKeys (sources : List ApplicationSource) (kq : GoStr) :
    kq ∈ refKeys sources ↔ ∃ s ∈ sources, s.ref ≠ [] ∧ gs "$" ++ s.ref = kq := by
  simp only [refKeys, List.mem_map, List.mem_filter, decide_eq_true_eq]
  constructor
  · rintro ⟨s, ⟨hs, hr⟩, hk⟩
    exact ⟨s, hs, hr, hk⟩
  · rintro ⟨s, hs, hr, hk⟩
    exact ⟨s, ⟨hs, hr⟩, hk⟩

theorem buildRefSources_length (sources : List ApplicationSource) :
    (buildRefSources sources).length = (refKeys sources).dedup.length := by
  have h1 : ((buildRefSources sources).map Prod.fst).Nodup := by
    rw [buildRefSources]
    exact buildRefLoop_keys_nodup sources [] (by simp)
  have h2 : (refKeys sources).dedup.Nodup := List.nodup_dedup _
  have hmem : ∀ kq, kq ∈ (buildRefSources sources).map Prod.fst ↔
      kq ∈ (refKeys sources).dedup := by
    intro kq
    rw [buildRefSources, buildRefLoop_keys_mem sources [] kq, List.mem_dedup, mem_refKeys]
    simp
  have hperm : List.Perm ((buildRefSources sources).map Prod.fst) ((refKeys sources).dedup) := by
    apply List.perm_of_nodup_nodup_toFinset_eq h1 h2
    ext a
    simp only [List.mem_toFinset]
    exact hmem a
  calc (buildRefSources sources).length
      = ((buildRefSources sources).map Prod.fst).length := (List.length_map _ _).symm
    _ = (refKeys sources).dedup.length := hperm.length_eq

/-! ## Claims C5 and C10: the Reference Table Builder -/

theorem buildRefLoop_skip_all :
    ∀ (sources : List ApplicationSource) (m : List (GoStr × RefTarget)),
      (∀ s ∈ sources, s.ref = []) →
      sources.foldl (fun m source =>
        if source.ref ≠ [] then refInsert m (gs "$" ++ source.ref) (mkRefTarget source)
        else m) m = m := by
  intro sources
  induction sources with
  | nil => intro m _; rfl
  | cons s rest ih =>
    intro m h
    simp only [List.foldl_cons]
    rw [if_neg (not_not_intro (h s (List.mem_cons_self s rest)))]
    exact ih m (fun t ht => h t (List.mem_cons_of_mem s ht))

/-- C5 (amended): the reference table keys `"$" + referenceName` and its
targets carry the source's `revisionSelector`, `originLocation` and
`packageName` but not its path (two sources differing only in path get
the same target).  Looking a key up yields the target of the **last**
source in list order bearing that reference name — so with duplicate
names the table has one entry per distinct non-empty name, not one per
ref-bearing source.  A list with no `referenceName` set anywhere
yields an empty table.  In the multi-source pass every renderer
request carries the table built from the already-resolved source list,
so a locally-detected source's entry carries the resolved commit. -/
theorem buildRefSources_spec (sources : List ApplicationSource) :
    (∀ s : ApplicationSource, mkRefTarget s =
      ⟨s.targetRevision, ⟨s.repoURL, [], [], []⟩, s.chart⟩) ∧
    (∀ (s : ApplicationSource) (p : GoStr), mkRefTarget {s with path := p} = mkRefTarget s) ∧
    ((∀ s ∈ sources, s.ref = []) → buildRefSources sources = []) ∧
    (∀ k, refLookup (buildRefSources sources) k = lastTarget sources k) ∧
    (∀ (env : GitEnv) (creds : GoStr → GoStr × GoStr) (app : Application)
      (r : ManifestRequest), r ∈ multiSourceRequests env creds app →
      r.refSources = buildRefSources (resolveLocalRevisions env app.getSources app.name).1) := by
  refine ⟨fun s => rfl, fun s p => rfl, ?_, buildRefSources_lookup sources, ?_⟩
  · intro h
    rw [buildRefSources]
    exact buildRefLoop_skip_all sources [] h
  · intro env creds app r hr
    simp only [multiSourceRequests, List.mem_map] at hr
    obtain ⟨p, -, rfl⟩ := hr
    rfl

/-- C5 counterexample: two sources share the non-empty reference name
`v`; the table has a single entry, keyed `$v`, carrying the **second**
source's data — so it does not contain one entry per ref-bearing
source, and the first source's revision selector is not carried by the
entry under its key. -/
theorem buildRefSources_duplicate_ref_single_entry :
    (buildRefSources
      [⟨gs "https://a/b", gs "r1", [], [], gs "v"⟩,
       ⟨gs "https://c/d", gs "r2", [], [], gs "v"⟩]).length = 1 ∧
    refLookup (buildRefSources
      [⟨gs "https://a/b", gs "r1", [], [], gs "v"⟩,
       ⟨gs "https://c/d", gs "r2", [], [], gs "v"⟩]) (gs "$v") =
      some ⟨gs "r2", ⟨gs "https://c/d", [], [], []⟩, []⟩ ∧
    (gs "v" : GoStr) ≠ [] ∧
    mkRefTarget ⟨gs "https://a/b", gs "r1", [], [], gs "v"⟩ ≠
      mkRefTarget ⟨gs "https://c/d", gs "r2", [], [], gs "v"⟩ := by decide

theorem buildRefSources_spec_witness :
    buildRefSources [⟨gs "https://a/b", gs "main", gs "p", [], []⟩] = [] :=
  (buildRefSources_spec [⟨gs "https://a/b", gs "main", gs "p", [], []⟩]).2.2.1 (by decide)

/-- C10: a later source with the same non-empty `referenceName`
silently overwrites the earlier one's entry: the lookup of any key
returns the target of the last source in list order bearing that name,
and the table's size is the number of distinct non-empty reference
keys, not the number of ref-bearing sources. -/
theorem buildRefSources_last_wins (sources : List ApplicationSource) :
    (∀ k, refLookup (buildRefSources sources) k = lastTarget sources k) ∧
    (buildRefSources sources).length = (refKeys sources).dedup.length :=
  ⟨buildRefSources_lookup sources, buildRefSources_length sources⟩

theorem buildRefSources_last_wins_witness :
    refLookup (buildRefSources
      [⟨gs "https://a/b", gs "r1", [], [], gs "w"⟩,
       ⟨gs "https://c/d", gs "r2", [], [], gs "w"⟩]) (gs "$w") =
      some (mkRefTarget ⟨gs "https://c/d", gs "r2", [], [], gs "w"⟩) := by
  have h := (buildRefSources_last_wins
    [⟨gs "https://a/b", gs "r1", [], [], gs "w"⟩,
     ⟨gs "https://c/d", gs "r2", [], [], gs "w"⟩]).1 (gs "$w")
  rw [h]
  decide

/-! ## Claim C9: resolution never mutates the input records -/

/-- The mutable state of the `resolveLocalRevisions` loop: the input
slice and the two freshly allocated output slices
(`make([]ApplicationSource, len(sources))`,
`make([]string, len(sources))`). -/
structure ResolveState where
  sources : List ApplicationSource
  resolvedSources : List ApplicationSource
  localPaths : List GoStr

/-- Iteration `i` of the `resolveLocalRevisions` loop, each Go slice
write an explicit state update: `resolvedSources[i] = source`, then —
for local non-chart sources — `localPaths[i] = localPath` and, when
HEAD resolution succeeds, `resolvedSources[i].TargetRevision =
resolvedRevision`.  No statement writes to `sources`. -/
def resolveStep (env : GitEnv) (st : ResolveState) (i : Nat) : ResolveState :=
  match st.sources[i]? with
  | none => st
  | some source =>
    let st1 : ResolveState := { st with resolvedSources := st.resolvedSources.set i source }
    let chk := isLocalRepository env source.repoURL
    if ¬ chk.isLocal ∨ source.chart ≠ [] then st1
    else
      let st2 : ResolveState := { st1 with localPaths := st1.localPaths.set i chk.path }
      match resolveLocalRevision env chk.path with
      | Except.error _ => st2
      | Except.ok sha =>
        { st2 with resolvedSources :=
            st2.resolvedSources.set i { source with targetRevision := sha } }

/-- The whole loop, run over the indices in order from the
freshly-allocated initial state. -/
def resolveRun (env : GitEnv) (sources : List ApplicationSource) : ResolveState :=
  (List.range sources.length).foldl (resolveStep env)
    ⟨sources, List.replicate sources.length emptySource, List.replicate sources.length []⟩

theorem resolveStep_sources (env : GitEnv) (st : ResolveState) (i : Nat) :
    (resolveStep env st i).sources = st.sources := by
  cases hs : st.sources[i]? with
  | none => simp [resolveStep, hs]
  | some s =>
    simp only [resolveStep, hs]
    by_cases h : ¬ (isLocalRepository env s.repoURL).isLocal ∨ s.chart ≠ []
    · rw [if_pos h]
    · rw [if_neg h]
      cases resolveLocalRevision env (isLocalRepository env s.repoURL).path <;> rfl

set_option maxRecDepth 4000 in
theorem resolveRun_invariant (env : GitEnv) (sources : List ApplicationSource) :
    ∀ k, k ≤ sources.length →
      (List.range k).foldl (resolveStep env)
          ⟨sources, List.replicate sources.length emptySource,
            List.replicate sources.length []⟩ =
        ⟨sources,
          ((sources.take k).map (fun s => (resolveOne env s).1))
            ++ List.replicate (sources.length - k) emptySource,
          ((sources.take k).map (fun s => (resolveOne env s).2))
            ++ List.replicate (sources.length - k) []⟩ := by
  intro k
  induction k with
  | zero => intro _; simp
  | succ k ih =>
    intro hk
    have hk' : k < sources.length := hk
    rw [List.range_succ, List.foldl_append, ih (Nat.le_of_succ_le hk)]
    simp only [List.foldl_cons, List.foldl_nil]
    have hs : sources[k]? = some sources[k] := List.getElem?_eq_getElem hk'
    have hAlen : ((sources.take k).map (fun s => (resolveOne env s).1)).length = k := by
      simp [List.length_take, Nat.min_eq_left (Nat.le_of_succ_le hk)]
    have hBlen : ((sources.take k).map (fun s => (resolveOne env s).2)).length = k := by
      simp [List.length_take, Nat.min_eq_left (Nat.le_of_succ_le hk)]
    have hrep : ∀ (x : ApplicationSource),
        List.replicate (sources.length - k) x = x :: List.replicate (sources.length - (k+1)) x := by
      intro x
      rw [show sources.length - k = (sources.length - (k+1)) + 1 by omega, List.replicate_succ]
    have hrepP : ∀ (x : GoStr),
        List.replicate (sources.length - k) x = x :: List.replicate (sources.length - (k+1)) x := by
      intro x
      rw [show sources.length - k = (sources.length - (k+1)) + 1 by omega, List.replicate_succ]
    have htake : sources.take (k+1) = sources.take k ++ [sources[k]] := by
      rw [List.take_succ, hs]
      rfl
    have hsetA : ∀ (R : List ApplicationSource) (x : ApplicationSource),
        ((sources.take k).map (fun s => (resolveOne env s).1) ++ R).set k x =
          (sources.take k).map (fun s => (resolveOne env s).1) ++ R.set 0 x := by
      intro R x
      rw [List.set_append_right _ _ (le_of_eq hAlen), hAlen, Nat.sub_self]
    have hsetB : ∀ (R : List GoStr) (x : GoStr),
        ((sources.take k).map (fun s => (resolveOne env s).2) ++ R).set k x =
          (sources.take k).map (fun s => (resolveOne env s).2) ++ R.set 0 x := by
      intro R x
      rw [List.set_append_right _ _ (le_of_eq hBlen), hBlen, Nat.sub_self]
    simp only [resolveStep, hs]
    by_cases hcase : ¬ (isLocalRepository env sources[k].repoURL).isLocal ∨
        sources[k].chart ≠ []
    · rw [if_pos hcase]
      have hro : resolveOne env sources[k] = (sources[k], []) := by
        rcases hcase with hcase | hcase
        · simp only [resolveOne]
          rw [if_pos (Or.inl hcase)]
        · simp only [resolveOne]
          rw [if_pos (Or.inr hcase)]
      simp only [hsetA, hrep, hrepP, List.set_cons_zero]
      simp only [htake, List.map_append, List.map_cons, List.map_nil, hro,
        List.append_assoc, List.singleton_append]
    · rw [if_neg hcase]
      push_neg at hcase
      obtain ⟨hloc, hchart⟩ := hcase
      have hloc' : (isLocalRepository env sources[k].repoURL).isLocal = true := by
        simpa using hloc
      cases hres : resolveLocalRevision env (isLocalRepository env sources[k].repoURL).path with
      | error e =>
        have hro : resolveOne env sources[k] =
            (sources[k], (isLocalRepository env sources[k].repoURL).path) := by
          simp [resolveOne, hloc', hchart, hres]
        simp only [hsetA, hsetB, hrep, hrepP, List.set_cons_zero]
        simp only [htake, List.map_append, List.map_cons, List.map_nil, hro,
          List.append_assoc, List.singleton_append]
      | ok sha =>
        have hro : resolveOne env sources[k] =
            ({ sources[k] with targetRevision := sha },
              (isLocalRepository env sources[k].repoURL).path) := by
          simp [resolveOne, hloc', hchart, hres]
        simp only [hsetA, hsetB, hrep, hrepP, List.set_cons_zero]
        simp only [htake, List.map_append, List.map_cons, List.map_nil, hro,
          List.append_assoc, List.singleton_append]

/-- Which record the single-source path's `applicationSource` pointer
designates: the descriptor's own source or the deep copy. -/
inductive SrcPtr where
  | orig
  | copied

/-- The two heap cells the single-source local-binding block can see:
the descriptor's source record and the cell `DeepCopy` fills. -/
structure SingleHeap where
  original : ApplicationSource
  copyCell : ApplicationSource

/-- A write of `TargetRevision` through a pointer: it mutates whichever
record the pointer designates. -/
def writeTargetRevision (h : SingleHeap) (p : SrcPtr) (sha : GoStr) : SingleHeap :=
  match p with
  | SrcPtr.orig => { h with original := { h.original with targetRevision := sha } }
  | SrcPtr.copied => { h with copyCell := { h.copyCell with targetRevision := sha } }

/-- The local-binding block of `generateSingleSourceManifest` as heap
operations: `applicationSource := app.Spec.Source` aliases the
original; on successful resolution the code first deep-copies
(`sourceCopy := app.Spec.Source.DeepCopy()`), then writes
`TargetRevision` through the copy pointer and repoints
`applicationSource` at the copy.  Returns the final heap and where the
pointer ends up. -/
def singleSourceResolveBlock (env : GitEnv) (h : SingleHeap) : SingleHeap × SrcPtr :=
  let chk := isLocalRepository env h.original.repoURL
  if chk.isLocal then
    match resolveLocalRevision env chk.path with
    | Except.error _ => (h, SrcPtr.orig)
    | Except.ok sha =>
      let h1 : SingleHeap := { h with copyCell := h.original }
      (writeTargetRevision h1 SrcPtr.copied sha, SrcPtr.copied)
  else (h, SrcPtr.orig)

/-- Read through the pointer. -/
def derefSrc (h : SingleHeap) (p : SrcPtr) : ApplicationSource :=
  match p with
  | SrcPtr.orig => h.original
  | SrcPtr.copied => h.copyCell

/-- C9: resolution never mutates the original source records.  Running
the multi-source resolution loop as its sequence of slice writes
leaves the input list untouched and fills exactly the fresh
resolved/local-path lists that `resolveLocalRevisions` returns; and in
the single-source path the revision substitution goes through the deep
copy — the heap's original record is unchanged by the block, while the
pointer the renderer will use sees the substituted revision. -/
theorem resolution_preserves_input_sources :
    (∀ (env : GitEnv) (sources : List ApplicationSource),
      (resolveRun env sources).sources = sources) ∧
    (∀ (env : GitEnv) (sources : List ApplicationSource) (appName : GoStr),
      (resolveRun env sources).resolvedSources =
        (resolveLocalRevisions env sources appName).1 ∧
      (resolveRun env sources).localPaths = (resolveLocalRevisions env sources appName).2) ∧
    (∀ (env : GitEnv) (h : SingleHeap),
      ((singleSourceResolveBlock env h).1).original = h.original) ∧
    (∀ (env : GitEnv) (h : SingleHeap) (sha : GoStr),
      (isLocalRepository env h.original.repoURL).isLocal = true →
      resolveLocalRevision env (isLocalRepository env h.original.repoURL).path =
        Except.ok sha →
      derefSrc (singleSourceResolveBlock env h).1 (singleSourceResolveBlock env h).2 =
        { h.original with targetRevision := sha }) := by
  have hrun : ∀ (env : GitEnv) (sources : List ApplicationSource),
      resolveRun env sources =
        ⟨sources, (sources.map (fun s => (resolveOne env s).1)),
          (sources.map (fun s => (resolveOne env s).2))⟩ := by
    intro env sources
    have h := resolveRun_invariant env sources sources.length (le_refl _)
    rw [resolveRun, h]
    simp [List.take_length]
  refine ⟨?_, ?_, ?_, ?_⟩
  · intro env sources
    rw [hrun]
  · intro env sources appName
    rw [hrun]
    constructor <;> simp [resolveLocalRevisions, List.map_map]
  · intro env h
    simp only [singleSourceResolveBlock]
    by_cases hl : (isLocalRepository env h.original.repoURL).isLocal
    · rw [if_pos hl]
      cases resolveLocalRevision env (isLocalRepository env h.original.repoURL).path <;> rfl
    · rw [if_neg hl]
  · intro env h sha hl hres
    simp only [singleSourceResolveBlock, hl, if_true, hres]
    rfl

theorem resolution_preserves_input_sources_witness :
    derefSrc
      (singleSourceResolveBlock
        ⟨some (gs "https://h/a/b"), some (gs "/repo"), fun _ => some (gs "abc123")⟩
        ⟨⟨gs "https://h/a/b", gs "main", [], [], []⟩,
         ⟨gs "https://h/a/b", gs "main", [], [], []⟩⟩).1
      (singleSourceResolveBlock
        ⟨some (gs "https://h/a/b"), some (gs "/repo"), fun _ => some (gs "abc123")⟩
        ⟨⟨gs "https://h/a/b", gs "main", [], [], []⟩,
         ⟨gs "https://h/a/b", gs "main", [], [], []⟩⟩).2 =
      ⟨gs "https://h/a/b", gs "abc123", [], [], []⟩ :=
  resolution_preserves_input_sources.2.2.2
    ⟨some (gs "https://h/a/b"), some (gs "/repo"), fun _ => some (gs "abc123")⟩
    ⟨⟨gs "https://h/a/b", gs "main", [], [], []⟩,
     ⟨gs "https://h/a/b", gs "main", [], [], []⟩⟩
    (gs "abc123") (by decide) rfl
